import Mathlib

/-!
Verification development for the litematic skin downloader's hard core:
the NBT (Named Binary Tag) decoder (`NBTReader` in `src/nbt-reader.js`) and
the skin extraction pass (`extractSkinsFromNBT`, `extractSkinFromEntity`,
`parseProfile`, `intArrayToUUID` in the same file).

Modelling conventions (shallow embedding of the JavaScript source):
- byte buffers are `List Nat`, each entry one byte (< 256 on real inputs);
- JavaScript strings are represented by their UTF-8 byte sequences
  (`List Nat`), since the decoder produces them by UTF-8-decoding raw bytes
  and the extractor only ever compares them for equality;
- 32/64-bit floats are represented by their raw big-endian bit patterns
  (width in bytes together with the bits), since no claim inspects float
  arithmetic;
- JavaScript objects are represented by their property lists in enumeration
  order; decoded compounds have pairwise-distinct keys because insertion
  overwrites in place, exactly as property assignment does;
- exceptions (`RangeError` on out-of-range reads, `throw new Error` on bad
  discriminants, `TypeError` on property access through null or on
  iterating a non-iterable) are modelled with `Except`;
- the recursive descent is run on explicit fuel; fuel exhaustion is a
  distinguished error and the fuel-monotonicity lemma below shows every
  successful run is stable under more fuel.
-/

namespace SkinDL

/-- Byte buffers: lists of naturals, one entry per byte. -/
abbrev Bytes := List Nat

/-- Errors of the decoder: cursor past the end of the buffer (JS
`RangeError`), an unrecognized tag-type discriminant, a non-compound root
tag, a negative typed-array length (JS `RangeError` in the `Int8Array` /
`Int32Array` constructor), and exhaustion of the interpreter's fuel. -/
inductive NErr where
  | oob
  | badTag (t : Nat)
  | badRoot (t : Nat)
  | negLen
  | noFuel
deriving DecidableEq, Repr

deriving instance DecidableEq for Except

/-- Two's-complement reinterpretation of an unsigned `w`-bit value, as the
`DataView.getIntN` family does. -/
def toSigned (w : Nat) (n : Nat) : Int :=
  if n < 2 ^ (w - 1) then (n : Int) else (n : Int) - 2 ^ w

/-- One bounds-checked byte, as `DataView.getUint8`. -/
def getByte (b : Bytes) (i : Nat) : Except NErr Nat :=
  match b.get? i with
  | some v => .ok v
  | none => .error .oob

/-- Big-endian bounds-checked read of `k` bytes, returning the combined
unsigned value and the new cursor position. -/
def readBE (k : Nat) (b : Bytes) (off : Nat) : Except NErr (Nat × Nat) :=
  match k with
  | 0 => .ok (0, off)
  | k + 1 =>
    match getByte b off with
    | .error e => .error e
    | .ok v =>
      match readBE k b (off + 1) with
      | .error e => .error e
      | .ok (w, o2) => .ok (v * 256 ^ k + w, o2)

/-- Source `readUByte`: one unsigned byte. -/
def readUByte (b : Bytes) (off : Nat) : Except NErr (Nat × Nat) :=
  readBE 1 b off

/-- Source `readByte`: one signed byte (`getInt8`). -/
def readByte (b : Bytes) (off : Nat) : Except NErr (Int × Nat) :=
  match readBE 1 b off with
  | .error e => .error e
  | .ok (v, o) => .ok (toSigned 8 v, o)

/-- Source `readShort`: signed 16-bit big-endian (`getInt16`). -/
def readShort (b : Bytes) (off : Nat) : Except NErr (Int × Nat) :=
  match readBE 2 b off with
  | .error e => .error e
  | .ok (v, o) => .ok (toSigned 16 v, o)

/-- Source `readInt`: signed 32-bit big-endian (`getInt32`). -/
def readInt (b : Bytes) (off : Nat) : Except NErr (Int × Nat) :=
  match readBE 4 b off with
  | .error e => .error e
  | .ok (v, o) => .ok (toSigned 32 v, o)

/-- Source `readLong`: a signed 32-bit high word and an unsigned 32-bit low
word, combined as `(BigInt(high) << 32n) | BigInt(low)`.  Since the low 32
bits of `high << 32` are zero and `low < 2^32`, the two's-complement
bitwise-or is exactly `high * 2^32 + low`. -/
def readLong (b : Bytes) (off : Nat) : Except NErr (Int × Nat) :=
  match readBE 4 b off with
  | .error e => .error e
  | .ok (hi, o1) =>
    match readBE 4 b o1 with
    | .error e => .error e
    | .ok (lo, o2) => .ok (toSigned 32 hi * 2 ^ 32 + (lo : Int), o2)

/-- Source `readString`: a signed 16-bit length prefix; a non-positive
length yields the empty string without consuming payload bytes, otherwise
`length` payload bytes are taken (the `Uint8Array` view construction range
checks against the underlying buffer). -/
def readString (b : Bytes) (off : Nat) : Except NErr (Bytes × Nat) :=
  match readShort b off with
  | .error e => .error e
  | .ok (len, o1) =>
    if len ≤ 0 then .ok ([], o1)
    else if o1 + len.toNat ≤ b.length then
      .ok ((b.drop o1).take len.toNat, o1 + len.toNat)
    else .error .oob

/-- Loop of `count` signed `w`-byte big-endian reads (the bodies of
`readByteArray` / `readIntArray`). -/
def readInts (count : Nat) (w : Nat) (b : Bytes) (off : Nat) :
    Except NErr (List Int × Nat) :=
  match count with
  | 0 => .ok ([], off)
  | c + 1 =>
    match readBE w b off with
    | .error e => .error e
    | .ok (v, o1) =>
      match readInts c w b o1 with
      | .error e => .error e
      | .ok (vs, o2) => .ok (toSigned (w * 8) v :: vs, o2)

/-- Loop of `count` `readLong`s (the body of `readLongArray`). -/
def readLongs (count : Nat) (b : Bytes) (off : Nat) :
    Except NErr (List Int × Nat) :=
  match count with
  | 0 => .ok ([], off)
  | c + 1 =>
    match readLong b off with
    | .error e => .error e
    | .ok (v, o1) =>
      match readLongs c b o1 with
      | .error e => .error e
      | .ok (vs, o2) => .ok (v :: vs, o2)

/-- Source `readByteArray`: a signed 32-bit length (a negative length makes
the `Int8Array` constructor throw a `RangeError`), then that many signed
bytes. -/
def readByteArray (b : Bytes) (off : Nat) : Except NErr (List Int × Nat) :=
  match readInt b off with
  | .error e => .error e
  | .ok (len, o1) =>
    if len < 0 then .error .negLen
    else readInts len.toNat 1 b o1

/-- Source `readIntArray`: as `readByteArray` with 32-bit elements. -/
def readIntArray (b : Bytes) (off : Nat) : Except NErr (List Int × Nat) :=
  match readInt b off with
  | .error e => .error e
  | .ok (len, o1) =>
    if len < 0 then .error .negLen
    else readInts len.toNat 4 b o1

/-- Source `readLongArray`: a signed 32-bit length pushed into a plain
array by a counted loop, so a negative length simply yields an empty
array. -/
def readLongArray (b : Bytes) (off : Nat) : Except NErr (List Int × Nat) :=
  match readInt b off with
  | .error e => .error e
  | .ok (len, o1) => readLongs len.toNat b o1

/-- Decoded JavaScript values as the reader produces them: `null` (the
end-marker payload), numbers from byte/short/int tags, floats by raw bit
pattern (width in bytes, bits), `BigInt`s from long tags, strings as UTF-8
byte sequences, plain arrays (lists and long arrays), `Int8Array`s,
`Int32Array`s, and objects as property lists in enumeration order. -/
inductive JSVal where
  | vnull
  | num (n : Int)
  | fnum (w : Nat) (bits : Nat)
  | big (n : Int)
  | str (s : List Nat)
  | arr (xs : List JSVal)
  | i8arr (xs : List Int)
  | i32arr (xs : List Int)
  | obj (fs : List (List Nat × JSVal))
deriving Repr

/-- Property lists of a modelled JavaScript object. -/
abbrev Fields := List (List Nat × JSVal)

/-- Structural equality of modelled JavaScript values; this is the
equality the `Set` of seen deduplication keys uses (SameValueZero — the
model has no reference identity, so objects compare structurally). -/
def jeq : JSVal → JSVal → Bool
  | .vnull, .vnull => true
  | .num x, .num y => x == y
  | .fnum w x, .fnum w' y => w == w' && x == y
  | .big x, .big y => x == y
  | .str s, .str t => s == t
  | .i8arr s, .i8arr t => s == t
  | .i32arr s, .i32arr t => s == t
  | .arr [], .arr [] => true
  | .arr (x :: xs), .arr (y :: ys) => jeq x y && jeq (.arr xs) (.arr ys)
  | .obj [], .obj [] => true
  | .obj ((k, v) :: fs), .obj ((k', v') :: gs) =>
    k == k' && jeq v v' && jeq (.obj fs) (.obj gs)
  | _, _ => false

/-- Structural equality is reflexive. -/
theorem jeq_refl : ∀ a : JSVal, jeq a a = true
  | .vnull => by simp [jeq]
  | .num x => by simp [jeq]
  | .fnum w x => by simp [jeq]
  | .big x => by simp [jeq]
  | .str s => by simp [jeq]
  | .i8arr s => by simp [jeq]
  | .i32arr s => by simp [jeq]
  | .arr [] => by simp [jeq]
  | .arr (x :: xs) => by simp [jeq, jeq_refl x, jeq_refl (.arr xs)]
  | .obj [] => by simp [jeq]
  | .obj ((k, v) :: fs) => by simp [jeq, jeq_refl v, jeq_refl (.obj fs)]
termination_by a => sizeOf a

/-- Sizes of modelled values are positive. -/
theorem jsSize_pos (a : JSVal) : 0 < sizeOf a := by
  cases a <;> simp_arith

/-- Structural equality implies equality. -/
theorem eq_of_jeq : ∀ {a b : JSVal}, jeq a b = true → a = b := by
  have main : ∀ n, ∀ a b : JSVal, sizeOf a ≤ n → jeq a b = true → a = b := by
    intro n
    induction n with
    | zero => intro a b hs _; exact absurd hs (by cases a <;> simp)
    | succ n ih =>
      intro a b hs h
      rw [jeq.eq_def] at h
      cases a <;> cases b <;> simp_all
      case arr.arr xs ys =>
        cases xs <;> cases ys <;> simp_all
        case cons.cons x xs y ys =>
          have pos := jsSize_pos x
          have hx : x = y := ih x y (by omega) h.1
          have hxs : JSVal.arr xs = JSVal.arr ys :=
            ih (.arr xs) (.arr ys) (by simp; omega) h.2
          exact ⟨hx, by injection hxs⟩
      case obj.obj fs gs =>
        cases fs <;> cases gs <;> simp_all
        case cons.cons p fs q gs =>
          obtain ⟨k, v⟩ := p
          obtain ⟨k', v'⟩ := q
          simp_all
          have pos := jsSize_pos v
          have hv : v = v' := ih v v' (by omega) h.1.2
          have hfs : JSVal.obj fs = JSVal.obj gs :=
            ih (.obj fs) (.obj gs) (by simp; omega) h.2
          exact ⟨hv, by injection hfs⟩
  intro a b h
  exact main (sizeOf a) a b le_rfl h

instance : DecidableEq JSVal := fun a b =>
  decidable_of_iff (jeq a b = true) ⟨eq_of_jeq, fun h => h ▸ jeq_refl a⟩

/-- Property assignment `o[k] = v`: overwrite in place when the key exists
(property order keeps the first-insertion position), append otherwise. -/
def insertField (fs : Fields) (k : List Nat) (v : JSVal) : Fields :=
  match fs with
  | [] => [(k, v)]
  | (k', v') :: rest =>
    if k' = k then (k', v) :: rest else (k', v') :: insertField rest k v

mutual

/-- Source `readTag`: dispatch on the tag-type discriminant.  An
unrecognized discriminant throws. -/
def readTagF (fuel : Nat) (t : Nat) (b : Bytes) (off : Nat) :
    Except NErr (JSVal × Nat) :=
  match fuel with
  | 0 => .error .noFuel
  | fuel + 1 =>
    match t with
    | 0 => .ok (.vnull, off)
    | 1 =>
      match readByte b off with
      | .error e => .error e
      | .ok (v, o) => .ok (.num v, o)
    | 2 =>
      match readShort b off with
      | .error e => .error e
      | .ok (v, o) => .ok (.num v, o)
    | 3 =>
      match readInt b off with
      | .error e => .error e
      | .ok (v, o) => .ok (.num v, o)
    | 4 =>
      match readLong b off with
      | .error e => .error e
      | .ok (v, o) => .ok (.big v, o)
    | 5 =>
      match readBE 4 b off with
      | .error e => .error e
      | .ok (v, o) => .ok (.fnum 4 v, o)
    | 6 =>
      match readBE 8 b off with
      | .error e => .error e
      | .ok (v, o) => .ok (.fnum 8 v, o)
    | 7 =>
      match readByteArray b off with
      | .error e => .error e
      | .ok (vs, o) => .ok (.i8arr vs, o)
    | 8 =>
      match readString b off with
      | .error e => .error e
      | .ok (s, o) => .ok (.str s, o)
    | 9 => readListF fuel b off
    | 10 =>
      match readCompoundF fuel b off [] with
      | .error e => .error e
      | .ok (fs, o) => .ok (.obj fs, o)
    | 11 =>
      match readIntArray b off with
      | .error e => .error e
      | .ok (vs, o) => .ok (.i32arr vs, o)
    | 12 =>
      match readLongArray b off with
      | .error e => .error e
      | .ok (vs, o) => .ok (.arr (vs.map .big), o)
    | t + 13 => .error (.badTag (t + 13))

/-- Source `readList`: one unsigned element-type byte, a signed 32-bit
length, then that many payloads of the element type (a negative length
runs the loop zero times). -/
def readListF (fuel : Nat) (b : Bytes) (off : Nat) :
    Except NErr (JSVal × Nat) :=
  match fuel with
  | 0 => .error .noFuel
  | fuel + 1 =>
    match readUByte b off with
    | .error e => .error e
    | .ok (it, o1) =>
      match readInt b o1 with
      | .error e => .error e
      | .ok (len, o2) =>
        match readElemsF fuel it len.toNat b o2 with
        | .error e => .error e
        | .ok (vs, o3) => .ok (.arr vs, o3)

/-- The element loop of `readList`. -/
def readElemsF (fuel : Nat) (t : Nat) (count : Nat) (b : Bytes)
    (off : Nat) : Except NErr (List JSVal × Nat) :=
  match fuel with
  | 0 => .error .noFuel
  | fuel + 1 =>
    match count with
    | 0 => .ok ([], off)
    | c + 1 =>
      match readTagF fuel t b off with
      | .error e => .error e
      | .ok (v, o1) =>
        match readElemsF fuel t c b o1 with
        | .error e => .error e
        | .ok (vs, o2) => .ok (v :: vs, o2)

/-- Source `readCompound`: repeatedly read an unsigned type byte; the
end-marker stops the loop, otherwise a string key and a payload of that
type are read and assigned into the accumulated object. -/
def readCompoundF (fuel : Nat) (b : Bytes) (off : Nat) (acc : Fields) :
    Except NErr (Fields × Nat) :=
  match fuel with
  | 0 => .error .noFuel
  | fuel + 1 =>
    match readUByte b off with
    | .error e => .error e
    | .ok (t, o1) =>
      if t = 0 then .ok (acc, o1)
      else
        match readString b o1 with
        | .error e => .error e
        | .ok (k, o2) =>
          match readTagF fuel t b o2 with
          | .error e => .error e
          | .ok (v, o3) => readCompoundF fuel b o3 (insertField acc k v)

end

/-- Source `NBTReader.parse`: an unsigned root discriminant that must be
compound, the root name string, then the root compound payload.  The final
cursor position is returned alongside the document. -/
def parseF (fuel : Nat) (b : Bytes) :
    Except NErr ((Bytes × Fields) × Nat) :=
  match readUByte b 0 with
  | .error e => .error e
  | .ok (rt, o1) =>
    if rt = 10 then
      match readString b o1 with
      | .error e => .error e
      | .ok (nm, o2) =>
        match readCompoundF fuel b o2 [] with
        | .error e => .error e
        | .ok (fs, o3) => .ok ((nm, fs), o3)
    else .error (.badRoot rt)

/-! ### The record extractor (`extractSkinsFromNBT` and helpers) -/

/-- ASCII bytes of a string literal; all keys the extractor consults are
ASCII, where UTF-8 agrees with the code points. -/
def sb (s : String) : List Nat := s.data.map Char.toNat

/-- JavaScript truthiness of a decoded value.  Numbers and BigInts are
falsy exactly at zero; the bit-pattern floats are falsy at ±0 and at NaN
patterns (exponent all ones with a non-zero mantissa); strings are falsy
when empty; null is falsy; arrays, typed arrays and objects are always
truthy. -/
def jsTruthy : JSVal → Bool
  | .vnull => false
  | .num n => n != 0
  | .big n => n != 0
  | .fnum 4 bits =>
    !(bits % 2 ^ 31 == 0 ||
      ((bits / 2 ^ 23) % 2 ^ 8 == 255 && bits % 2 ^ 23 != 0))
  | .fnum 8 bits =>
    !(bits % 2 ^ 63 == 0 ||
      ((bits / 2 ^ 52) % 2 ^ 11 == 2047 && bits % 2 ^ 52 != 0))
  | .fnum _ _ => true
  | .str s => !s.isEmpty
  | .arr _ => true
  | .i8arr _ => true
  | .i32arr _ => true
  | .obj _ => true

/-- Truthiness of a possibly-undefined value (`none` models JavaScript's
`undefined`, which is falsy). -/
def optTruthy : Option JSVal → Bool
  | none => false
  | some v => jsTruthy v

/-- The JavaScript `a || b`: `a` when truthy, otherwise `b` verbatim. -/
def jsOr (a b : Option JSVal) : Option JSVal :=
  if optTruthy a then a else b

/-- A canonical decimal array-index string (digits only, no leading zero
except for "0" itself), as used by indexed property access. -/
def decIndex? : List Nat → Option Nat
  | [] => none
  | d :: ds =>
    if d = 48 ∧ ds = [] then some 0
    else if 49 ≤ d ∧ d ≤ 57 ∧ ds.all (fun c => 48 ≤ c ∧ c ≤ 57) then
      some (ds.foldl (fun acc c => acc * 10 + (c - 48)) (d - 48))
    else none

/-- Property access `v[k]` on a non-null base: association lookup on
objects, element access for canonical index keys on arrays, typed arrays
and strings (per code unit), `undefined` otherwise.  Built-in non-index
properties (such as `length`) and methods are not modelled; the extractor
never reads such a key through plain property access.  Every call site
below tests for null before accessing (access through null throws). -/
def getProp : JSVal → List Nat → Option JSVal
  | .vnull, _ => none
  | .num _, _ => none
  | .fnum _ _, _ => none
  | .big _, _ => none
  | .str s, k => (decIndex? k).bind fun n => (s.get? n).map fun b => .str [b]
  | .arr xs, k => (decIndex? k).bind fun n => xs.get? n
  | .i8arr xs, k => (decIndex? k).bind fun n => (xs.get? n).map .num
  | .i32arr xs, k => (decIndex? k).bind fun n => (xs.get? n).map .num
  | .obj fs, k => (fs.find? (fun p => p.1 == k)).map (·.2)

/-- One lowercase hexadecimal digit. -/
def hexDigit (n : Nat) : Nat := if n < 10 then 48 + n else 87 + n

/-- Division-loop core of hexadecimal rendering, on explicit fuel so that
it evaluates by kernel reduction; `n + 1` units always suffice. -/
def natToHexCore : Nat → Nat → List Nat
  | 0, _ => []
  | fuel + 1, n =>
    if n < 16 then [hexDigit n]
    else natToHexCore fuel (n / 16) ++ [hexDigit (n % 16)]

/-- Lowercase hexadecimal rendering of a natural number, as
`Number.prototype.toString(16)` produces for non-negative integers. -/
def natToHex (n : Nat) : List Nat := natToHexCore (n + 1) n

/-- `toString(16)` of a signed integer: a minus sign followed by the hex
digits of the magnitude. -/
def intToHex (n : Int) : List Nat :=
  if n < 0 then 45 :: natToHex (-n).toNat else natToHex n.toNat

/-- `padStart(8, '0')`. -/
def pad8 (s : List Nat) : List Nat := List.replicate (8 - s.length) 48 ++ s

/-- The `>>> 0` coercion (ToUint32) applied to the values an id array can
hold.  Numbers and BigInts (the latter first converted by `Number`, exact
below 2^53 — every decoded UUID word is 32-bit) reduce modulo 2^32; null
coerces to 0.  JavaScript's numeric coercion of strings, arrays, objects
and non-integral floats is outside the model and fixed at 0; no claim
exercises those operands. -/
def toU32 : JSVal → Nat
  | .num n => (n % 4294967296).toNat
  | .big n => (n % 4294967296).toNat
  | _ => 0

/-- The 8-4-4-4-12 hyphenated re-slicing of 32 hex digits (`slice` calls
in the source). -/
def hyphenate (h : List Nat) : List Nat :=
  h.take 8 ++ [45] ++ ((h.drop 8).take 4) ++ [45] ++ ((h.drop 12).take 4)
    ++ [45] ++ ((h.drop 16).take 4) ++ [45] ++ ((h.drop 20).take 12)

/-- Source `intArrayToUUID`: null unless the argument is a plain array of
length 4; otherwise each element is reduced to its unsigned 32-bit
representation, rendered as 8-digit lowercase hex with zero padding,
concatenated, and hyphenated. -/
def intArrayToUUID : JSVal → Option (List Nat)
  | .arr xs =>
    if xs.length = 4 then
      some (hyphenate (xs.map (fun x => pad8 (natToHex (toU32 x)))).flatten)
    else none
  | _ => none

/-- Canonical skin-profile record.  `none` models both JavaScript `null`
and `undefined` in a field. -/
structure SkinProfile where
  name : Option JSVal
  customName : Option JSVal
  uuid : Option JSVal
  textureValue : Option JSVal
  textureSignature : Option JSVal
deriving Repr, DecidableEq

/-- The one runtime error the extraction pass can raise: a `TypeError`,
from property access through null or from iterating a non-iterable. -/
inductive JsErr where
  | typeErr
deriving DecidableEq, Repr

/-- The id-compound path of `parseProfile`: the four values keyed "0".."3"
(`id["0"] || id[0]` reads the same property twice, so it is one lookup),
fed to `intArrayToUUID` when all four are defined. -/
def idArrayUUID (v : JSVal) : Option JSVal :=
  match getProp v (sb "0"), getProp v (sb "1"),
      getProp v (sb "2"), getProp v (sb "3") with
  | some a, some b, some c, some d =>
    (intArrayToUUID (.arr [a, b, c, d])).map .str
  | _, _, _, _ => none

/-- Hexadecimal id fallback `id.toString(16)` for a `number`/`bigint` id.
A float-tagged number would stringify through double formatting, which
the bit-pattern float model does not interpret; that branch yields the
empty string and no claim exercises it. -/
def jsHex16 : JSVal → List Nat
  | .num n => intToHex n
  | .big n => intToHex n
  | _ => []

/-- The `properties.find(p => p.name === 'textures' || p.Name ===
'textures')` scan.  Reading `.name` of a null element throws. -/
def findTextures : List JSVal → Except JsErr (Option JSVal)
  | [] => .ok none
  | .vnull :: _ => .error .typeErr
  | p :: rest =>
    if getProp p (sb "name") == some (.str (sb "textures"))
        || getProp p (sb "Name") == some (.str (sb "textures")) then
      .ok (some p)
    else findTextures rest

/-- The non-array branch of the texture extraction (the `Array.isArray`
test fails, which typed arrays also do): read a `textures`/`Textures`
list and take its first element's value/signature fields; reading the
fields of a null first element throws. -/
def texTail (properties : JSVal) : Except JsErr (Option JSVal × Option JSVal) :=
  match jsOr (getProp properties (sb "textures"))
      (jsOr (getProp properties (sb "Textures")) (some (.arr []))) with
  | some (.arr (t :: _)) =>
    match t with
    | .vnull => .error .typeErr
    | _ =>
      .ok (jsOr (getProp t (sb "Value")) (getProp t (sb "value")),
        jsOr (getProp t (sb "Signature")) (getProp t (sb "signature")))
  | _ => .ok (none, none)

/-- Texture value and signature from a truthy `Properties` value: the
array form selects the first entry named "textures"; any other form falls
to `texTail`. -/
def texturePair (properties : JSVal) : Except JsErr (Option JSVal × Option JSVal) :=
  match properties with
  | .arr ps =>
    match findTextures ps with
    | .error e => .error e
    | .ok none => .ok (none, none)
    | .ok (some tp) =>
      .ok (jsOr (getProp tp (sb "Value")) (getProp tp (sb "value")),
        jsOr (getProp tp (sb "Signature")) (getProp tp (sb "signature")))
  | _ => texTail properties

/-- The non-string branch of `parseProfile`: name, UUID (string verbatim;
4-element array; digit-keyed compound or typed array; single number as a
bare hex string) and texture fields are extracted, and the profile is
discarded when name, UUID and texture value are all falsy. -/
def parseProfileObj (profile : JSVal) (customName : Option JSVal) :
    Except JsErr (Option SkinProfile) :=
    let name := jsOr (getProp profile (sb "Name"))
      (jsOr (getProp profile (sb "name")) none)
    let id := jsOr (getProp profile (sb "Id"))
      (jsOr (getProp profile (sb "id"))
        (jsOr (getProp profile (sb "UUID")) (getProp profile (sb "uuid"))))
    let uuid : Option JSVal :=
      if optTruthy id then
        match id with
        | some (.arr xs) => (intArrayToUUID (.arr xs)).map .str
        | some (.obj fs) => idArrayUUID (.obj fs)
        | some (.i8arr xs) => idArrayUUID (.i8arr xs)
        | some (.i32arr xs) => idArrayUUID (.i32arr xs)
        | some (.str s) => some (.str s)
        | some (.num n) => some (.str (jsHex16 (.num n)))
        | some (.big n) => some (.str (jsHex16 (.big n)))
        | some (.fnum w bits) => some (.str (jsHex16 (.fnum w bits)))
        | some .vnull => none
        | none => none
      else none
    let properties := jsOr (getProp profile (sb "Properties"))
      (getProp profile (sb "properties"))
    let texRes :=
      match properties with
      | some pv => if jsTruthy pv then texturePair pv else .ok (none, none)
      | none => .ok (none, none)
    match texRes with
    | .error e => .error e
    | .ok (tv, ts) =>
      if !optTruthy name && !optTruthy uuid && !optTruthy tv then .ok none
      else .ok (some ⟨name, customName, uuid, tv, ts⟩)

/-- Source `parseProfile`: a bare string is a player name; any other shape
is handled by `parseProfileObj`. -/
def parseProfile (profile : JSVal) (customName : Option JSVal) :
    Except JsErr (Option SkinProfile) :=
  match profile with
  | .str s => .ok (some ⟨some (.str s), customName, none, none, none⟩)
  | _ => parseProfileObj profile customName

/-- The non-null branch of `extractSkinFromEntity`: the skull-profile
sub-structure is the first truthy of `profile`/`SkullOwner`/`Owner`;
absent means not a head block.  The `id`/`Id` binding in the source is
dead (read and never used), so the block id never influences the
result. -/
def entityBody (entity : JSVal) : Except JsErr (Option SkinProfile) :=
  let profile := jsOr (getProp entity (sb "profile"))
    (jsOr (getProp entity (sb "SkullOwner")) (getProp entity (sb "Owner")))
  match profile with
  | some p =>
    if jsTruthy p then
      parseProfile p
        (jsOr (getProp entity (sb "custom_name"))
          (jsOr (getProp entity (sb "CustomName")) none))
    else .ok none
  | none => .ok none

/-- Source `extractSkinFromEntity`: property access through a null entity
throws; otherwise `entityBody` locates and parses the profile. -/
def extractSkinFromEntity (entity : JSVal) : Except JsErr (Option SkinProfile) :=
  match entity with
  | .vnull => .error .typeErr
  | _ => entityBody entity

/-- Elements produced by `for...of`: arrays yield their elements, strings
their code units as one-character strings, typed arrays their numbers;
everything else (numbers, BigInts, plain objects, null) is not iterable
and throws a `TypeError`. -/
def iterElems : JSVal → Except JsErr (List JSVal)
  | .arr xs => .ok xs
  | .str s => .ok (s.map fun b => .str [b])
  | .i8arr xs => .ok (xs.map .num)
  | .i32arr xs => .ok (xs.map .num)
  | _ => .error .typeErr

/-- Values visited by `for...in` followed by indexing: the property values
of an object in enumeration order (decoded compounds have unique keys, so
indexing by the enumerated key returns the listed value), the elements of
an array or typed array, the code units of a string, and nothing for
other primitives. -/
def forInVals : JSVal → List JSVal
  | .obj fs => fs.map (·.2)
  | .arr xs => xs
  | .i8arr xs => xs.map .num
  | .i32arr xs => xs.map .num
  | .str s => s.map fun b => .str [b]
  | _ => []

/-- The deduplication key of a produced profile: texture value if truthy,
else UUID, else name (the source's `||` chain). -/
def skinKey (sd : SkinProfile) : Option JSVal :=
  jsOr sd.textureValue (jsOr sd.uuid sd.name)

/-- The block-entity loop of `extractSkinsFromNBT`: each entity yielding a
profile with a truthy, unseen key appends it and marks the key seen. -/
def extractEntities : List JSVal → List SkinProfile → List JSVal →
    Except JsErr (List SkinProfile × List JSVal)
  | [], skins, seen => .ok (skins, seen)
  | e :: rest, skins, seen =>
    match extractSkinFromEntity e with
    | .error er => .error er
    | .ok none => extractEntities rest skins seen
    | .ok (some sd) =>
      match skinKey sd with
      | some k =>
        if jsTruthy k && !(seen.any fun s => jeq s k) then
          extractEntities rest (skins ++ [sd]) (seen ++ [k])
        else extractEntities rest skins seen
      | none => extractEntities rest skins seen

/-- A region's block-entity list: the first truthy of
`BlockEntities`/`TileEntities`, defaulting to an empty array. -/
def regionBE (r : JSVal) : Option JSVal :=
  jsOr (getProp r (sb "BlockEntities"))
    (jsOr (getProp r (sb "TileEntities")) (some (.arr [])))

/-- One region of the region loop, past the null check: the block-entity
list is iterated with `for...of` and fed to the entity loop. -/
def regionStepBody (r : JSVal) (skins : List SkinProfile) (seen : List JSVal) :
    Except JsErr (List SkinProfile × List JSVal) :=
  match regionBE r with
  | none => .ok (skins, seen)
  | some bev =>
    match iterElems bev with
    | .error e => .error e
    | .ok es => extractEntities es skins seen

/-- One region of the region loop.  Property access through a null region
throws. -/
def regionStep (r : JSVal) (skins : List SkinProfile) (seen : List JSVal) :
    Except JsErr (List SkinProfile × List JSVal) :=
  match r with
  | .vnull => .error .typeErr
  | _ => regionStepBody r skins seen

/-- The region loop of `extractSkinsFromNBT`. -/
def extractRegions : List JSVal → List SkinProfile → List JSVal →
    Except JsErr (List SkinProfile)
  | [], skins, _ => .ok skins
  | r :: rest, skins, seen =>
    match regionStep r skins seen with
    | .error e => .error e
    | .ok (skins', seen') => extractRegions rest skins' seen'

/-- Source `extractSkinsFromNBT`: the regions mapping is the first truthy
of `Regions`/`regions`, defaulting to an empty object, and its values are
walked in enumeration order. -/
def extractSkinsFromNBT (nbtData : Bytes × Fields) : Except JsErr (List SkinProfile) :=
  let root := JSVal.obj nbtData.2
  let regions := jsOr (getProp root (sb "Regions"))
    (jsOr (getProp root (sb "regions")) (some (.obj [])))
  match regions with
  | none => .ok []
  | some rg => extractRegions (forInVals rg) [] []

/-! ### The error-free domain of the extraction pass

The extraction pass can throw a `TypeError` (property access through a
null value, `for...of` over a non-iterable).  The following predicates
mirror the error structure of the functions above, carving out the inputs
on which no error site is reached. -/

/-- `findTextures` succeeds unless it meets a null element before a
match. -/
def findTexturesOk : List JSVal → Bool
  | [] => true
  | .vnull :: _ => false
  | p :: rest =>
    if getProp p (sb "name") == some (.str (sb "textures"))
        || getProp p (sb "Name") == some (.str (sb "textures")) then true
    else findTexturesOk rest

/-- `texTail` succeeds unless the textures list starts with null. -/
def texTailOk (properties : JSVal) : Bool :=
  match jsOr (getProp properties (sb "textures"))
      (jsOr (getProp properties (sb "Textures")) (some (.arr []))) with
  | some (.arr (.vnull :: _)) => false
  | _ => true

/-- The error-free domain of `texturePair`. -/
def texturePairOk (properties : JSVal) : Bool :=
  match properties with
  | .arr ps => findTexturesOk ps
  | _ => texTailOk properties

/-- The error-free domain of `parseProfileObj`: only a truthy properties
value is ever fed to `texturePair`. -/
def parseProfileObjOk (profile : JSVal) : Bool :=
  match jsOr (getProp profile (sb "Properties"))
      (getProp profile (sb "properties")) with
  | some pv => if jsTruthy pv then texturePairOk pv else true
  | none => true

/-- The error-free domain of `parseProfile`. -/
def parseProfileOk (profile : JSVal) : Bool :=
  match profile with
  | .str _ => true
  | _ => parseProfileObjOk profile

/-- The error-free domain of `entityBody`. -/
def entityBodyOk (entity : JSVal) : Bool :=
  match jsOr (getProp entity (sb "profile"))
      (jsOr (getProp entity (sb "SkullOwner"))
        (getProp entity (sb "Owner"))) with
  | some p => if jsTruthy p then parseProfileOk p else true
  | none => true

/-- The error-free domain of `extractSkinFromEntity`: the entity is not
null and its profile parses without error. -/
def entityOk : JSVal → Bool
  | .vnull => false
  | e => entityBodyOk e

/-- The error-free domain of `regionStepBody`. -/
def regionBodyOk (r : JSVal) : Bool :=
  match regionBE r with
  | none => true
  | some bev =>
    match iterElems bev with
    | .error _ => false
    | .ok es => es.all entityOk

/-- The error-free domain of `regionStep`: the region is not null, its
block-entity value is iterable, and every entity is error-free. -/
def regionOk : JSVal → Bool
  | .vnull => false
  | r => regionBodyOk r

/-- The error-free domain of `extractSkinsFromNBT`: every region value is
error-free. -/
def extractOk (t : Bytes × Fields) : Bool :=
  match jsOr (getProp (.obj t.2) (sb "Regions"))
      (jsOr (getProp (.obj t.2) (sb "regions")) (some (.obj []))) with
  | none => true
  | some rg => (forInVals rg).all regionOk

/-! ### The encounter-ordered profile stream and first-wins deduplication

The loops above thread a `(skins, seen)` accumulator.  To state the
deduplication policy, the same walk is expressed as an encounter-ordered
stream of `(key, profile)` pairs followed by a first-wins fold. -/

/-- First-wins deduplication of a keyed profile stream: a pair with a
truthy, unseen key is kept and its key marked seen; everything else is
dropped.  This is the source's seen-set policy as a pure fold. -/
def dedupPairs (seen : List JSVal) :
    List (JSVal × SkinProfile) → List (JSVal × SkinProfile)
  | [] => []
  | (k, sd) :: rest =>
    if jsTruthy k && !(seen.any fun s => jeq s k) then
      (k, sd) :: dedupPairs (seen ++ [k]) rest
    else dedupPairs seen rest

/-- The accumulator form of the same fold, as the entity loop threads
it. -/
def dedupStep (st : List SkinProfile × List JSVal) :
    List (JSVal × SkinProfile) → List SkinProfile × List JSVal
  | [] => st
  | (k, sd) :: rest =>
    if jsTruthy k && !(st.2.any fun s => jeq s k) then
      dedupStep (st.1 ++ [sd], st.2 ++ [k]) rest
    else dedupStep st rest

/-- The undeduplicated keyed profile stream of one block-entity list, in
encounter order.  Entities that are not head blocks, profiles the parser
discards, and profiles without a key do not enter the stream. -/
def keyedProfiles : List JSVal → Except JsErr (List (JSVal × SkinProfile))
  | [] => .ok []
  | e :: rest =>
    match extractSkinFromEntity e with
    | .error er => .error er
    | .ok none => keyedProfiles rest
    | .ok (some sd) =>
      match skinKey sd with
      | some k => Except.map (fun l => (k, sd) :: l) (keyedProfiles rest)
      | none => keyedProfiles rest

/-- The keyed profile stream of one region, past the null check. -/
def regionKeyedBody (r : JSVal) : Except JsErr (List (JSVal × SkinProfile)) :=
  match regionBE r with
  | none => .ok []
  | some bev =>
    match iterElems bev with
    | .error e => .error e
    | .ok es => keyedProfiles es

/-- The keyed profile stream of one region. -/
def regionKeyedStep (r : JSVal) : Except JsErr (List (JSVal × SkinProfile)) :=
  match r with
  | .vnull => .error .typeErr
  | _ => regionKeyedBody r

/-- The keyed profile stream of the region list, in region order. -/
def regionKeyed : List JSVal → Except JsErr (List (JSVal × SkinProfile))
  | [] => .ok []
  | r :: rest =>
    match regionKeyedStep r with
    | .error e => .error e
    | .ok l => Except.map (fun l2 => l ++ l2) (regionKeyed rest)

/-- The full encounter-ordered keyed profile stream of a decoded
document: regions in enumeration order, then block entities within each
region. -/
def extractStream (t : Bytes × Fields) :
    Except JsErr (List (JSVal × SkinProfile)) :=
  match jsOr (getProp (.obj t.2) (sb "Regions"))
      (jsOr (getProp (.obj t.2) (sb "regions")) (some (.obj []))) with
  | none => .ok []
  | some rg => regionKeyed (forInVals rg)

/-- A skull owner whose texture value is "TEX1" and whose name is `nm`. -/
def tex1Owner (nm : String) : JSVal :=
  .obj [(sb "Name", .str (sb nm)),
    (sb "Properties", .obj [(sb "textures",
      .arr [.obj [(sb "Value", .str (sb "TEX1"))]])])]

/-- A block entity holding `tex1Owner nm` under `SkullOwner`. -/
def tex1Entity (nm : String) : JSVal := .obj [(sb "SkullOwner", tex1Owner nm)]

/-- A document with one region holding two block entities that share the
texture value "TEX1" but differ in name. -/
def tex1Doc : Bytes × Fields :=
  ([], [(sb "Regions", .obj [(sb "r", .obj [(sb "BlockEntities",
    .arr [tex1Entity "A", tex1Entity "B"])])])])

/-! ### Reference encoder over hand-built tag trees

The repository is decode-only; the round-trip and duplicate-key properties
quantify over trees encoded by a reference encoder, which is modelled here
from the spec's byte-level description of the format (§4.2). -/

mutual

/-- Modelled from the spec: a hand-built tag tree (§3 data model), one
constructor per tag-type variant.  Lists carry their declared element type
so that an empty list still encodes a type byte. -/
inductive Tag where
  | byte (n : Int)
  | short (n : Int)
  | int (n : Int)
  | long (n : Int)
  | float (bits : Nat)
  | double (bits : Nat)
  | byteArr (xs : List Int)
  | str (s : List Nat)
  | list (et : Nat) (xs : Tags)
  | compound (fs : TagFields)
  | intArr (xs : List Int)
  | longArr (xs : List Int)

/-- Sequences of tags (list elements). -/
inductive Tags where
  | nil
  | cons (hd : Tag) (tl : Tags)

/-- Ordered named fields of a compound. -/
inductive TagFields where
  | fnil
  | fcons (k : List Nat) (v : Tag) (tl : TagFields)

end

/-- The tag-type discriminant of a tree node. -/
def tagType : Tag → Nat
  | .byte _ => 1
  | .short _ => 2
  | .int _ => 3
  | .long _ => 4
  | .float _ => 5
  | .double _ => 6
  | .byteArr _ => 7
  | .str _ => 8
  | .list _ _ => 9
  | .compound _ => 10
  | .intArr _ => 11
  | .longArr _ => 12

/-- Length of a tag sequence. -/
def lenTags : Tags → Nat
  | .nil => 0
  | .cons _ tl => 1 + lenTags tl

/-- Keys of a field sequence, in order. -/
def fkeys : TagFields → List (List Nat)
  | .fnil => []
  | .fcons k _ tl => k :: fkeys tl

/-- Modelled from the spec: big-endian byte rendering of an unsigned
value in `k` bytes. -/
def encBE (k : Nat) (n : Nat) : List Nat :=
  match k with
  | 0 => []
  | k + 1 => (n / 256 ^ k) :: encBE k (n % 256 ^ k)

/-- Modelled from the spec: two's-complement big-endian rendering of a
signed value in `k` bytes. -/
def encS (k : Nat) (n : Int) : List Nat :=
  encBE k ((n % ((256 : Int) ^ k)).toNat)

/-- Modelled from the spec: a string as a 16-bit length followed by its
bytes. -/
def encStr (s : List Nat) : List Nat := encBE 2 s.length ++ s

mutual

/-- Modelled from the spec: the reference encoder's payload bytes of one
tag (§4.2 read rules, inverted): fixed-width big-endian scalars; float
bits verbatim; length-prefixed arrays; length-prefixed strings; lists as
element-type byte, 32-bit length, then element payloads; compounds as
type-byte/key/payload triples closed by the end marker. -/
def encPayload : Tag → List Nat
  | .byte n => encS 1 n
  | .short n => encS 2 n
  | .int n => encS 4 n
  | .long n => encS 8 n
  | .float b => encBE 4 b
  | .double b => encBE 8 b
  | .byteArr xs => encS 4 (xs.length : Int) ++ (xs.map (fun x => encS 1 x)).flatten
  | .str s => encStr s
  | .list et xs => et :: (encS 4 (lenTags xs : Int) ++ encTags xs)
  | .compound fs => encFields fs ++ [0]
  | .intArr xs => encS 4 (xs.length : Int) ++ (xs.map (fun x => encS 4 x)).flatten
  | .longArr xs => encS 4 (xs.length : Int) ++ (xs.map (fun x => encS 8 x)).flatten

/-- Concatenated payloads of a tag sequence. -/
def encTags : Tags → List Nat
  | .nil => []
  | .cons t tl => encPayload t ++ encTags tl

/-- Encoded entries of a compound body (without the end marker). -/
def encFields : TagFields → List Nat
  | .fnil => []
  | .fcons k v tl => tagType v :: (encStr k ++ encPayload v ++ encFields tl)

end

/-- All elements of a sequence carry the declared element type. -/
def allType (et : Nat) : Tags → Bool
  | .nil => true
  | .cons t tl => tagType t == et && allType et tl

mutual

/-- The round-trippable domain of the decoder: a format-well-formed tree
(`wfTag` below) whose strings and keys are additionally SHORTER THAN
2^15.  The extra cap is not part of the format — its 16-bit length prefix
admits up to 65535 — but the decoder reads that prefix as signed, so
round-trip fails on lengths 32768..65535 (see the C3 correction); this
predicate is the conjunction of `wfTag` and `smallTag` in one recursion,
as `rt_of_wf_small` proves.  Compound keys need not be distinct here; the
decoder's last-write-wins behaviour is stated separately. -/
def rtTag : Tag → Bool
  | .byte n => -128 ≤ n && n < 128
  | .short n => -(2 ^ 15) ≤ n && n < 2 ^ 15
  | .int n => -(2 ^ 31) ≤ n && n < 2 ^ 31
  | .long n => -(2 ^ 63) ≤ n && n < 2 ^ 63
  | .float b => b < 2 ^ 32
  | .double b => b < 2 ^ 64
  | .byteArr xs => xs.length < 2 ^ 31 && xs.all fun x => -128 ≤ x && x < 128
  | .str s => s.length < 2 ^ 15 && s.all (· < 256)
  | .list et xs => lenTags xs < 2 ^ 31 && et < 256 && allType et xs && rtTags xs
  | .compound fs => rtFields fs
  | .intArr xs => xs.length < 2 ^ 31 && xs.all fun x => -(2 ^ 31) ≤ x && x < 2 ^ 31
  | .longArr xs => xs.length < 2 ^ 31 && xs.all fun x => -(2 ^ 63) ≤ x && x < 2 ^ 63

/-- Well-formedness of every element. -/
def rtTags : Tags → Bool
  | .nil => true
  | .cons t tl => rtTag t && rtTags tl

/-- Well-formedness of every field (keys string-well-formed, values
well-formed). -/
def rtFields : TagFields → Bool
  | .fnil => true
  | .fcons k v tl =>
    k.length < 2 ^ 15 && k.all (· < 256) && rtTag v && rtFields tl

end

mutual

/-- Modelled from the spec: format well-formedness of a hand-built tree.
Every scalar is within its width, float bits within their width, strings
and keys are byte-valued with lengths up to 65535 (the 16-bit length
prefix), array and list lengths are below 2^31, and list elements share
the declared element type.  Compound keys need not be distinct. -/
def wfTag : Tag → Bool
  | .byte n => -128 ≤ n && n < 128
  | .short n => -(2 ^ 15) ≤ n && n < 2 ^ 15
  | .int n => -(2 ^ 31) ≤ n && n < 2 ^ 31
  | .long n => -(2 ^ 63) ≤ n && n < 2 ^ 63
  | .float b => b < 2 ^ 32
  | .double b => b < 2 ^ 64
  | .byteArr xs => xs.length < 2 ^ 31 && xs.all fun x => -128 ≤ x && x < 128
  | .str s => s.length < 2 ^ 16 && s.all (· < 256)
  | .list et xs => lenTags xs < 2 ^ 31 && et < 256 && allType et xs && wfTags xs
  | .compound fs => wfFields fs
  | .intArr xs => xs.length < 2 ^ 31 && xs.all fun x => -(2 ^ 31) ≤ x && x < 2 ^ 31
  | .longArr xs => xs.length < 2 ^ 31 && xs.all fun x => -(2 ^ 63) ≤ x && x < 2 ^ 63

/-- Format well-formedness of every element. -/
def wfTags : Tags → Bool
  | .nil => true
  | .cons t tl => wfTag t && wfTags tl

/-- Format well-formedness of every field. -/
def wfFields : TagFields → Bool
  | .fnil => true
  | .fcons k v tl =>
    k.length < 2 ^ 16 && k.all (· < 256) && wfTag v && wfFields tl

end

mutual

/-- Every string payload in the tree is shorter than 2^15: the region
where the decoder's signed 16-bit length read returns the written
length.  Strings of length 32768..65535 are admitted by the format but
decode to the empty string (the C3/C4 defect). -/
def smallTag : Tag → Bool
  | .str s => s.length < 2 ^ 15
  | .list _ xs => smallTags xs
  | .compound fs => smallFields fs
  | _ => true

/-- Short string payloads in every element. -/
def smallTags : Tags → Bool
  | .nil => true
  | .cons t tl => smallTag t && smallTags tl

/-- Short keys and short string payloads in every field. -/
def smallFields : TagFields → Bool
  | .fnil => true
  | .fcons k v tl => k.length < 2 ^ 15 && smallTag v && smallFields tl

end

mutual

/-- Format well-formedness together with short strings gives the
round-trippable domain. -/
theorem rt_of_wf_small : ∀ t : Tag, wfTag t = true → smallTag t = true →
    rtTag t = true
  | .byte n, hw, _ => hw
  | .short n, hw, _ => hw
  | .int n, hw, _ => hw
  | .long n, hw, _ => hw
  | .float b, hw, _ => hw
  | .double b, hw, _ => hw
  | .byteArr xs, hw, _ => hw
  | .str s, hw, hs => by
    simp only [wfTag, smallTag, rtTag, Bool.and_eq_true,
      decide_eq_true_eq] at *
    exact ⟨hs, hw.2⟩
  | .list et xs, hw, hs => by
    simp only [wfTag, smallTag, rtTag, Bool.and_eq_true] at *
    exact ⟨hw.1, rt_of_wf_small_tags xs hw.2 hs⟩
  | .compound fs, hw, hs => rt_of_wf_small_fields fs hw hs
  | .intArr xs, hw, _ => hw
  | .longArr xs, hw, _ => hw

/-- Elementwise bridge for list elements. -/
theorem rt_of_wf_small_tags : ∀ ts : Tags, wfTags ts = true →
    smallTags ts = true → rtTags ts = true
  | .nil, _, _ => rfl
  | .cons t tl, hw, hs => by
    simp only [wfTags, smallTags, rtTags, Bool.and_eq_true] at *
    exact ⟨rt_of_wf_small t hw.1 hs.1, rt_of_wf_small_tags tl hw.2 hs.2⟩

/-- Fieldwise bridge for compound fields. -/
theorem rt_of_wf_small_fields : ∀ fs : TagFields, wfFields fs = true →
    smallFields fs = true → rtFields fs = true
  | .fnil, _, _ => rfl
  | .fcons k v tl, hw, hs => by
    simp only [wfFields, smallFields, rtFields, Bool.and_eq_true,
      decide_eq_true_eq] at *
    exact ⟨⟨⟨hs.1.1, hw.1.1.2⟩, rt_of_wf_small v hw.1.2 hs.1.2⟩,
      rt_of_wf_small_fields tl hw.2 hs.2⟩

end

mutual

/-- The decoded JavaScript image of a tree: numbers for the three small
integer widths, BigInts for longs, bit-pattern floats, typed arrays for
byte/int arrays, plain arrays for lists and long arrays, objects for
compounds (entries assigned in order, duplicates overwriting in place). -/
def jsOfTag : Tag → JSVal
  | .byte n => .num n
  | .short n => .num n
  | .int n => .num n
  | .long n => .big n
  | .float b => .fnum 4 b
  | .double b => .fnum 8 b
  | .byteArr xs => .i8arr xs
  | .str s => .str s
  | .list _ xs => .arr (jsOfTags xs)
  | .compound fs => .obj (jsOfFieldsAcc [] fs)
  | .intArr xs => .i32arr xs
  | .longArr xs => .arr (xs.map .big)

/-- Decoded images of a tag sequence. -/
def jsOfTags : Tags → List JSVal
  | .nil => []
  | .cons t tl => jsOfTag t :: jsOfTags tl

/-- Property assignment of each field in order into an accumulator, as
the decoder's compound loop performs it. -/
def jsOfFieldsAcc (acc : Fields) : TagFields → Fields
  | .fnil => acc
  | .fcons k v tl => jsOfFieldsAcc (insertField acc k (jsOfTag v)) tl

end

/-- The plain ordered field image, valid when keys are distinct. -/
def jsFieldsPlain : TagFields → Fields
  | .fnil => []
  | .fcons k v tl => (k, jsOfTag v) :: jsFieldsPlain tl

mutual

/-- Fuel sufficient to decode an encoded tree (one unit per interpreter
entry, summed). -/
def tagFuel : Tag → Nat
  | .list _ xs => 2 + tagsFuel xs
  | .compound fs => 1 + fieldsFuel fs
  | _ => 1

/-- Fuel for a tag sequence. -/
def tagsFuel : Tags → Nat
  | .nil => 1
  | .cons t tl => 1 + tagFuel t + tagsFuel tl

/-- Fuel for a compound body. -/
def fieldsFuel : TagFields → Nat
  | .fnil => 1
  | .fcons _ v tl => 1 + tagFuel v + fieldsFuel tl

end

/-- Modelled from the spec: a whole encoded document — the compound
discriminant, the root name, the root compound payload. -/
def encodeRoot (nm : List Nat) (fs : TagFields) : List Nat :=
  10 :: (encStr nm ++ encPayload (.compound fs))

/-! ### Byte-level decoding lemmas -/

/-- Big-endian unsigned value of a digit list. -/
def beNat : List Nat → Nat
  | [] => 0
  | b :: bs => b * 256 ^ bs.length + beNat bs

/-- Stepping through one listed byte. -/
theorem drop_cons_step {B : Bytes} {off : Nat} {x : Nat} {l : List Nat}
    (h : B.drop off = x :: l) :
    B.get? off = some x ∧ B.drop (off + 1) = l := by
  constructor
  · have h0 : (B.drop off)[0]? = some x := by rw [h]; simp
    rw [List.getElem?_drop] at h0
    simpa using h0
  · have := List.drop_drop 1 off B
    rw [h] at this
    simpa using this.symm

/-- Stepping over a listed block of bytes. -/
theorem drop_append_step {B : Bytes} {off : Nat} {l r : List Nat}
    (h : B.drop off = l ++ r) :
    B.drop (off + l.length) = r := by
  have := List.drop_drop l.length off B
  rw [h] at this
  simpa using this.symm

/-- Encoded blocks have their declared width. -/
theorem encBE_length (k n : Nat) : (encBE k n).length = k := by
  induction k generalizing n with
  | zero => rfl
  | succ k ih => simp [encBE, ih]

/-- Reading back an encoded big-endian block. -/
theorem readBE_enc {k n : Nat} {B : Bytes} {off : Nat} {rest : List Nat}
    (hn : n < 256 ^ k) (h : B.drop off = encBE k n ++ rest) :
    readBE k B off = .ok (n, off + k) := by
  induction k generalizing n off with
  | zero =>
    simp only [readBE]
    have : n = 0 := by simpa using hn
    simp [this]
  | succ k ih =>
    rw [encBE] at h
    simp only [List.cons_append] at h
    obtain ⟨hb, hrest⟩ := drop_cons_step h
    have hrec := ih (Nat.mod_lt _ (by positivity)) hrest
    simp only [readBE, getByte, hb, hrec]
    have hdm : n / 256 ^ k * 256 ^ k + n % 256 ^ k = n := by
      have := Nat.div_add_mod n (256 ^ k)
      rw [Nat.mul_comm] at this
      exact this
    have ho : off + 1 + k = off + (k + 1) := by omega
    rw [hdm, ho]

/-- Two's-complement 8-bit round trip. -/
theorem toSigned_mod8 {m : Int} (h1 : -128 ≤ m) (h2 : m < 128) :
    (m % (256 : Int)).toNat < 256 ∧ toSigned 8 ((m % (256 : Int)).toNat) = m := by
  refine ⟨by omega, ?_⟩
  unfold toSigned
  norm_num
  split <;> omega

/-- Two's-complement 16-bit round trip. -/
theorem toSigned_mod16 {m : Int} (h1 : -32768 ≤ m) (h2 : m < 32768) :
    (m % (65536 : Int)).toNat < 65536 ∧
      toSigned 16 ((m % (65536 : Int)).toNat) = m := by
  refine ⟨by omega, ?_⟩
  unfold toSigned
  norm_num
  split <;> omega

/-- Two's-complement 32-bit round trip. -/
theorem toSigned_mod32 {m : Int} (h1 : -2147483648 ≤ m) (h2 : m < 2147483648) :
    (m % (4294967296 : Int)).toNat < 4294967296 ∧
      toSigned 32 ((m % (4294967296 : Int)).toNat) = m := by
  refine ⟨by omega, ?_⟩
  unfold toSigned
  norm_num
  split <;> omega

/-- Two's-complement 64-bit round trip. -/
theorem toSigned_mod64 {m : Int} (h1 : -9223372036854775808 ≤ m)
    (h2 : m < 9223372036854775808) :
    (m % (18446744073709551616 : Int)).toNat < 18446744073709551616 ∧
      toSigned 64 ((m % (18446744073709551616 : Int)).toNat) = m := by
  refine ⟨by omega, ?_⟩
  unfold toSigned
  norm_num
  split <;> omega

/-- Reading back an encoded signed byte. -/
theorem readByte_enc {m : Int} {B : Bytes} {off : Nat} {rest : List Nat}
    (h1 : -128 ≤ m) (h2 : m < 128) (h : B.drop off = encS 1 m ++ rest) :
    readByte B off = .ok (m, off + 1) := by
  unfold encS at h
  norm_num at h
  obtain ⟨hlt, hval⟩ := toSigned_mod8 h1 h2
  have hr := readBE_enc (by norm_num; exact hlt) h
  simp only [readByte, hr, hval]

/-- Reading back an encoded signed 16-bit value. -/
theorem readShort_enc {m : Int} {B : Bytes} {off : Nat} {rest : List Nat}
    (h1 : -32768 ≤ m) (h2 : m < 32768) (h : B.drop off = encS 2 m ++ rest) :
    readShort B off = .ok (m, off + 2) := by
  unfold encS at h
  norm_num at h
  obtain ⟨hlt, hval⟩ := toSigned_mod16 h1 h2
  have hr := readBE_enc (by norm_num; exact hlt) h
  simp only [readShort, hr, hval]

/-- Reading back an encoded signed 32-bit value. -/
theorem readInt_enc {m : Int} {B : Bytes} {off : Nat} {rest : List Nat}
    (h1 : -2147483648 ≤ m) (h2 : m < 2147483648)
    (h : B.drop off = encS 4 m ++ rest) :
    readInt B off = .ok (m, off + 4) := by
  unfold encS at h
  norm_num at h
  obtain ⟨hlt, hval⟩ := toSigned_mod32 h1 h2
  have hr := readBE_enc (by norm_num; exact hlt) h
  simp only [readInt, hr, hval]

/-- An 8-byte big-endian block splits into its two 4-byte words. -/
theorem encBE8_split (u : Nat) :
    encBE 8 u = encBE 4 (u / 4294967296) ++ encBE 4 (u % 4294967296) := by
  simp only [encBE]
  norm_num
  omega

/-- Combining the signed high word with the unsigned low word is the
64-bit two's-complement reading — the arithmetic heart of `readLong`. -/
theorem long_combine {u : Nat} (hu : u < 18446744073709551616) :
    toSigned 32 (u / 4294967296) * 2 ^ 32 + ((u % 4294967296 : Nat) : Int)
      = toSigned 64 u := by
  unfold toSigned
  norm_num
  split <;> split <;> omega

/-- `readLong` on a listed 8-byte big-endian block returns its 64-bit
two's-complement value. -/
theorem readLong_bytes {u : Nat} {B : Bytes} {off : Nat} {rest : List Nat}
    (hu : u < 18446744073709551616) (h : B.drop off = encBE 8 u ++ rest) :
    readLong B off = .ok (toSigned 64 u, off + 8) := by
  rw [encBE8_split, List.append_assoc] at h
  have hhi : u / 4294967296 < 256 ^ 4 := by norm_num; omega
  have hlo : u % 4294967296 < 256 ^ 4 := by norm_num; omega
  have h1 := readBE_enc hhi h
  have h2' : B.drop (off + 4) = encBE 4 (u % 4294967296) ++ rest := by
    have := drop_append_step (l := encBE 4 (u / 4294967296)) h
    rwa [encBE_length] at this
  have h2 := readBE_enc hlo h2'
  simp only [readLong, h1, h2]
  rw [show off + 4 + 4 = off + 8 by omega, long_combine hu]

/-- Reading back an encoded signed 64-bit value. -/
theorem readLong_enc {m : Int} {B : Bytes} {off : Nat} {rest : List Nat}
    (h1 : -9223372036854775808 ≤ m) (h2 : m < 9223372036854775808)
    (h : B.drop off = encS 8 m ++ rest) :
    readLong B off = .ok (m, off + 8) := by
  unfold encS at h
  norm_num at h
  obtain ⟨hlt, hval⟩ := toSigned_mod64 h1 h2
  rw [readLong_bytes hlt h, hval]

/-- Reading back an encoded string. -/
theorem readString_enc {s : List Nat} {B : Bytes} {off : Nat} {rest : List Nat}
    (hs : s.length < 32768) (h : B.drop off = encStr s ++ rest) :
    readString B off = .ok (s, off + 2 + s.length) := by
  unfold encStr at h
  rw [List.append_assoc] at h
  have hlen : (s.length : Int) < 32768 := by exact_mod_cast hs
  have hsh : readShort B off = .ok ((s.length : Int), off + 2) := by
    have henc : B.drop off = encS 2 (s.length : Int) ++ (s ++ rest) := by
      unfold encS
      norm_num
      rw [Int.emod_eq_of_lt (by omega) (by omega)]
      simpa using h
    exact readShort_enc (by omega) (by omega) henc
  have hrest : B.drop (off + 2) = s ++ rest := by
    have := drop_append_step (l := encBE 2 s.length) h
    rwa [encBE_length] at this
  simp only [readString, hsh]
  by_cases h0 : s.length = 0
  · rw [if_pos (by omega)]
    simp [List.eq_nil_of_length_eq_zero h0, h0]
  · rw [if_neg (by omega)]
    have hblen : off + 2 + s.length ≤ B.length := by
      have hl := congrArg List.length hrest
      simp at hl
      omega
    rw [if_pos (by simpa using hblen)]
    rw [hrest]
    simp [List.take_left' rfl]

/-- Reading back a run of encoded signed bytes. -/
theorem readInts1_enc {xs : List Int} {B : Bytes} {off : Nat} {rest : List Nat}
    (hx : ∀ x ∈ xs, -128 ≤ x ∧ x < 128)
    (h : B.drop off = (xs.map fun x => encS 1 x).flatten ++ rest) :
    readInts xs.length 1 B off = .ok (xs, off + xs.length) := by
  induction xs generalizing off with
  | nil => simp [readInts]
  | cons x xs ih =>
    simp only [List.map_cons, List.flatten_cons, List.append_assoc] at h
    obtain ⟨hx1, hx2⟩ := hx x (by simp)
    have hb : readBE 1 B off = .ok (((x % (256 : Int)).toNat), off + 1) := by
      have hlt : (x % (256 : Int)).toNat < 256 ^ 1 := by norm_num; omega
      have hdrop : B.drop off = encBE 1 ((x % (256 : Int)).toNat)
          ++ ((xs.map fun x => encS 1 x).flatten ++ rest) := by
        unfold encS at h
        norm_num at h
        exact h
      exact readBE_enc hlt hdrop
    have hrest : B.drop (off + 1) = (xs.map fun x => encS 1 x).flatten ++ rest := by
      have := drop_append_step (l := encS 1 x) h
      unfold encS at this
      rwa [encBE_length] at this
    have hr := ih (fun y hy => hx y (by simp [hy])) hrest
    simp only [List.length_cons, readInts, hb, hr]
    rw [(toSigned_mod8 hx1 hx2).2]
    have : off + 1 + xs.length = off + (xs.length + 1) := by omega
    rw [this]

/-- Reading back a run of encoded signed 32-bit values. -/
theorem readInts4_enc {xs : List Int} {B : Bytes} {off : Nat} {rest : List Nat}
    (hx : ∀ x ∈ xs, -2147483648 ≤ x ∧ x < 2147483648)
    (h : B.drop off = (xs.map fun x => encS 4 x).flatten ++ rest) :
    readInts xs.length 4 B off = .ok (xs, off + 4 * xs.length) := by
  induction xs generalizing off with
  | nil => simp [readInts]
  | cons x xs ih =>
    simp only [List.map_cons, List.flatten_cons, List.append_assoc] at h
    obtain ⟨hx1, hx2⟩ := hx x (by simp)
    have hb : readBE 4 B off = .ok (((x % (4294967296 : Int)).toNat), off + 4) := by
      have hlt : (x % (4294967296 : Int)).toNat < 256 ^ 4 := by norm_num; omega
      have hdrop : B.drop off = encBE 4 ((x % (4294967296 : Int)).toNat)
          ++ ((xs.map fun x => encS 4 x).flatten ++ rest) := by
        unfold encS at h
        norm_num at h
        exact h
      exact readBE_enc hlt hdrop
    have hrest : B.drop (off + 4) = (xs.map fun x => encS 4 x).flatten ++ rest := by
      have := drop_append_step (l := encS 4 x) h
      unfold encS at this
      rwa [encBE_length] at this
    have hr := ih (fun y hy => hx y (by simp [hy])) hrest
    simp only [List.length_cons, readInts, hb, hr]
    rw [(toSigned_mod32 hx1 hx2).2]
    have : off + 4 + 4 * xs.length = off + 4 * (xs.length + 1) := by omega
    rw [this]

/-- Reading back a run of encoded signed 64-bit values. -/
theorem readLongs_enc {xs : List Int} {B : Bytes} {off : Nat} {rest : List Nat}
    (hx : ∀ x ∈ xs, -9223372036854775808 ≤ x ∧ x < 9223372036854775808)
    (h : B.drop off = (xs.map fun x => encS 8 x).flatten ++ rest) :
    readLongs xs.length B off = .ok (xs, off + 8 * xs.length) := by
  induction xs generalizing off with
  | nil => simp [readLongs]
  | cons x xs ih =>
    simp only [List.map_cons, List.flatten_cons, List.append_assoc] at h
    obtain ⟨hx1, hx2⟩ := hx x (by simp)
    have hb := readLong_enc hx1 hx2 h
    have hrest : B.drop (off + 8) = (xs.map fun x => encS 8 x).flatten ++ rest := by
      have := drop_append_step (l := encS 8 x) h
      unfold encS at this
      rwa [encBE_length] at this
    have hr := ih (fun y hy => hx y (by simp [hy])) hrest
    simp only [List.length_cons, readLongs, hb, hr]
    have : off + 8 + 8 * xs.length = off + 8 * (xs.length + 1) := by omega
    rw [this]

/-- Reading back an encoded byte array. -/
theorem readByteArray_enc {xs : List Int} {B : Bytes} {off : Nat}
    {rest : List Nat} (hlen : xs.length < 2 ^ 31)
    (hx : ∀ x ∈ xs, -128 ≤ x ∧ x < 128)
    (h : B.drop off
      = encS 4 (xs.length : Int) ++ ((xs.map fun x => encS 1 x).flatten ++ rest)) :
    readByteArray B off = .ok (xs, off + 4 + xs.length) := by
  have hint := readInt_enc (m := (xs.length : Int)) (by omega)
    (by exact_mod_cast (by norm_num at hlen ⊢; omega : xs.length < 2147483648)) h
  have hrest : B.drop (off + 4) = (xs.map fun x => encS 1 x).flatten ++ rest := by
    have := drop_append_step (l := encS 4 (xs.length : Int)) h
    unfold encS at this
    rwa [encBE_length] at this
  have hr := readInts1_enc hx hrest
  simp only [readByteArray, hint]
  rw [if_neg (by omega)]
  simpa using hr

/-- Reading back an encoded int array. -/
theorem readIntArray_enc {xs : List Int} {B : Bytes} {off : Nat}
    {rest : List Nat} (hlen : xs.length < 2 ^ 31)
    (hx : ∀ x ∈ xs, -2147483648 ≤ x ∧ x < 2147483648)
    (h : B.drop off
      = encS 4 (xs.length : Int) ++ ((xs.map fun x => encS 4 x).flatten ++ rest)) :
    readIntArray B off = .ok (xs, off + 4 + 4 * xs.length) := by
  have hint := readInt_enc (m := (xs.length : Int)) (by omega)
    (by exact_mod_cast (by norm_num at hlen ⊢; omega : xs.length < 2147483648)) h
  have hrest : B.drop (off + 4) = (xs.map fun x => encS 4 x).flatten ++ rest := by
    have := drop_append_step (l := encS 4 (xs.length : Int)) h
    unfold encS at this
    rwa [encBE_length] at this
  have hr := readInts4_enc hx hrest
  simp only [readIntArray, hint]
  rw [if_neg (by omega)]
  simpa using hr

/-- Reading back an encoded long array. -/
theorem readLongArray_enc {xs : List Int} {B : Bytes} {off : Nat}
    {rest : List Nat} (hlen : xs.length < 2 ^ 31)
    (hx : ∀ x ∈ xs, -9223372036854775808 ≤ x ∧ x < 9223372036854775808)
    (h : B.drop off
      = encS 4 (xs.length : Int) ++ ((xs.map fun x => encS 8 x).flatten ++ rest)) :
    readLongArray B off = .ok (xs, off + 4 + 8 * xs.length) := by
  have hint := readInt_enc (m := (xs.length : Int)) (by omega)
    (by exact_mod_cast (by norm_num at hlen ⊢; omega : xs.length < 2147483648)) h
  have hrest : B.drop (off + 4) = (xs.map fun x => encS 8 x).flatten ++ rest := by
    have := drop_append_step (l := encS 4 (xs.length : Int)) h
    unfold encS at this
    rwa [encBE_length] at this
  have hr := readLongs_enc hx hrest
  simp only [readLongArray, hint]
  simpa using hr

/-- Width of a signed encoding. -/
theorem encS_length (k : Nat) (m : Int) : (encS k m).length = k := by
  unfold encS; exact encBE_length _ _

/-- Width of a run of fixed-width encodings. -/
theorem flatten_map_encS_length (k : Nat) (xs : List Int) :
    ((xs.map fun x => encS k x).flatten).length = k * xs.length := by
  induction xs with
  | nil => simp
  | cons x xs ih => simp [ih, encS_length]; ring

/-- Width of a run of fixed-width encodings, in summed form. -/
theorem sum_map_encS_length (k : Nat) (xs : List Int) :
    (List.map (List.length ∘ fun x => encS k x) xs).sum = k * xs.length := by
  induction xs with
  | nil => simp
  | cons x xs ih => simp [ih, encS_length]; ring

/-- Width of an encoded string. -/
theorem encStr_length (s : List Nat) : (encStr s).length = 2 + s.length := by
  unfold encStr; simp [encBE_length]

/-- One unsigned byte read from a listed byte. -/
theorem readUByte_at {B : Bytes} {off v : Nat} (h : B.get? off = some v) :
    readUByte B off = .ok (v, off + 1) := by
  have h2 : B[off]? = some v := by rw [← List.get?_eq_getElem?]; exact h
  simp [readUByte, readBE, getByte, h2]

/-- Tag discriminants are positive. -/
theorem tagType_pos (t : Tag) : 1 ≤ tagType t := by
  cases t <;> simp [tagType]

/-- Tag discriminants are at most 12. -/
theorem tagType_le (t : Tag) : tagType t ≤ 12 := by
  cases t <;> simp [tagType]

/-- Fuel of a tag is positive. -/
theorem tagFuel_pos (t : Tag) : 1 ≤ tagFuel t := by
  cases t <;> first | (simp [tagFuel]; omega) | simp [tagFuel]

/-- Fuel of a sequence is positive. -/
theorem tagsFuel_pos (ts : Tags) : 1 ≤ tagsFuel ts := by
  cases ts <;> first | (simp [tagsFuel]; omega) | simp [tagsFuel]

/-- Fuel of a field sequence is positive. -/
theorem fieldsFuel_pos (fs : TagFields) : 1 ≤ fieldsFuel fs := by
  cases fs <;> first | (simp [fieldsFuel]; omega) | simp [fieldsFuel]

/-- Decoding an encoded payload with sufficient fuel succeeds, consumes
exactly the payload, and returns the JavaScript image of the tree — stated
simultaneously for tag payloads, list payloads, element runs and compound
bodies, by strong induction on fuel. -/
theorem dec_enc (fuel : Nat) :
    (∀ t B off rest, rtTag t = true → tagFuel t ≤ fuel →
      B.drop off = encPayload t ++ rest →
      readTagF fuel (tagType t) B off
        = .ok (jsOfTag t, off + (encPayload t).length))
    ∧ (∀ et xs B off rest, rtTag (.list et xs) = true →
      1 + tagsFuel xs ≤ fuel →
      B.drop off = encPayload (.list et xs) ++ rest →
      readListF fuel B off
        = .ok (jsOfTag (.list et xs), off + (encPayload (.list et xs)).length))
    ∧ (∀ et ts B off rest, rtTags ts = true → allType et ts = true →
      tagsFuel ts ≤ fuel →
      B.drop off = encTags ts ++ rest →
      readElemsF fuel et (lenTags ts) B off
        = .ok (jsOfTags ts, off + (encTags ts).length))
    ∧ (∀ fs B off rest acc, rtFields fs = true → fieldsFuel fs ≤ fuel →
      B.drop off = encFields fs ++ 0 :: rest →
      readCompoundF fuel B off acc
        = .ok (jsOfFieldsAcc acc fs, off + ((encFields fs).length + 1))) := by
  induction fuel using Nat.strong_induction_on with
  | _ fuel ih =>
    refine ⟨?_, ?_, ?_, ?_⟩
    · -- tag payloads
      intro t B off rest hwf hfl h
      match fuel, hfl with
      | 0, hfl => exact absurd hfl (by have := tagFuel_pos t; omega)
      | fuel + 1, hfl =>
      cases t with
      | byte n =>
        simp only [rtTag, Bool.and_eq_true, decide_eq_true_eq] at hwf
        simp only [encPayload] at h
        have hb := readByte_enc hwf.1 hwf.2 h
        simp [readTagF, tagType, hb, jsOfTag, encPayload, encS_length]
      | short n =>
        simp only [rtTag, Bool.and_eq_true, decide_eq_true_eq] at hwf
        simp only [encPayload] at h
        have hb := readShort_enc (by omega) (by omega) h
        simp [readTagF, tagType, hb, jsOfTag, encPayload, encS_length]
      | int n =>
        simp only [rtTag, Bool.and_eq_true, decide_eq_true_eq] at hwf
        simp only [encPayload] at h
        have hb := readInt_enc (by omega) (by omega) h
        simp [readTagF, tagType, hb, jsOfTag, encPayload, encS_length]
      | long n =>
        simp only [rtTag, Bool.and_eq_true, decide_eq_true_eq] at hwf
        simp only [encPayload] at h
        have hb := readLong_enc (by omega) (by omega) h
        simp [readTagF, tagType, hb, jsOfTag, encPayload, encS_length]
      | float b =>
        simp only [rtTag, decide_eq_true_eq] at hwf
        simp only [encPayload] at h
        have hb := readBE_enc (show b < 256 ^ 4 by norm_num; omega) h
        simp [readTagF, tagType, hb, jsOfTag, encPayload, encBE_length]
      | double b =>
        simp only [rtTag, decide_eq_true_eq] at hwf
        simp only [encPayload] at h
        have hb := readBE_enc (show b < 256 ^ 8 by norm_num; omega) h
        simp [readTagF, tagType, hb, jsOfTag, encPayload, encBE_length]
      | byteArr xs =>
        simp only [rtTag, Bool.and_eq_true, decide_eq_true_eq,
          List.all_eq_true] at hwf
        simp only [encPayload, List.append_assoc] at h
        have hb := readByteArray_enc hwf.1
          (fun x hx => by have := hwf.2 x hx; simpa using this) h
        simp [readTagF, tagType, hb, jsOfTag, encPayload, encS_length,
          sum_map_encS_length]
        try omega
      | str s =>
        simp only [rtTag, Bool.and_eq_true, decide_eq_true_eq] at hwf
        simp only [encPayload] at h
        have hb := readString_enc (by omega) h
        simp [readTagF, tagType, hb, jsOfTag, encPayload, encStr_length]
        try omega
      | list et xs =>
        have hs := (ih fuel (by omega)).2.1 et xs B off rest hwf
          (by simp only [tagFuel] at hfl; omega) h
        simpa [readTagF, tagType] using hs
      | compound fs =>
        simp only [rtTag] at hwf
        simp only [encPayload, List.append_assoc, List.singleton_append] at h
        have hc := (ih fuel (by omega)).2.2.2 fs B off rest [] hwf
          (by simp only [tagFuel] at hfl; omega) h
        simp [readTagF, tagType, hc, jsOfTag, encPayload]
        try omega
      | intArr xs =>
        simp only [rtTag, Bool.and_eq_true, decide_eq_true_eq,
          List.all_eq_true] at hwf
        simp only [encPayload, List.append_assoc] at h
        have hb := readIntArray_enc hwf.1
          (fun x hx => by have := hwf.2 x hx; simpa using this) h
        simp [readTagF, tagType, hb, jsOfTag, encPayload, encS_length,
          sum_map_encS_length]
        try omega
      | longArr xs =>
        simp only [rtTag, Bool.and_eq_true, decide_eq_true_eq,
          List.all_eq_true] at hwf
        simp only [encPayload, List.append_assoc] at h
        have hb := readLongArray_enc hwf.1
          (fun x hx => by have := hwf.2 x hx; simpa using this) h
        simp [readTagF, tagType, hb, jsOfTag, encPayload, encS_length,
          sum_map_encS_length]
        try omega
    · -- list payloads
      intro et xs B off rest hwf hfl h
      match fuel, hfl with
      | 0, hfl => exact absurd hfl (by have := tagsFuel_pos xs; omega)
      | fuel + 1, hfl =>
      simp only [rtTag, Bool.and_eq_true, decide_eq_true_eq] at hwf
      obtain ⟨⟨⟨hlen, _het⟩, hall⟩, hwfs⟩ := hwf
      simp only [encPayload, List.cons_append, List.append_assoc] at h
      obtain ⟨hb, hrest⟩ := drop_cons_step h
      have hu := readUByte_at hb
      have hint := readInt_enc (m := (lenTags xs : Int)) (by omega)
        (by exact_mod_cast (by norm_num at hlen ⊢; omega :
          lenTags xs < 2147483648)) hrest
      have hrest2 : B.drop (off + 1 + 4) = encTags xs ++ rest := by
        have := drop_append_step (l := encS 4 (lenTags xs : Int)) hrest
        rwa [encS_length] at this
      have he := (ih fuel (by omega)).2.2.1 et xs B (off + 1 + 4) rest hwfs
        hall (by omega) hrest2
      simp only [readListF, hu, hint, Int.toNat_natCast, he, jsOfTag]
      simp [encPayload, encS_length]
      try omega
    · -- element runs
      intro et ts B off rest hwf hall hfl h
      match fuel, hfl with
      | 0, hfl => exact absurd hfl (by have := tagsFuel_pos ts; omega)
      | fuel + 1, hfl =>
      cases ts with
      | nil =>
        simp [readElemsF, lenTags, encTags, jsOfTags]
      | cons t tl =>
        simp only [rtTags, Bool.and_eq_true] at hwf
        simp only [allType, Bool.and_eq_true, beq_iff_eq] at hall
        simp only [encTags, List.append_assoc] at h
        have hfuel : tagFuel t ≤ fuel ∧ tagsFuel tl ≤ fuel := by
          simp only [tagsFuel] at hfl
          have := tagFuel_pos t
          have := tagsFuel_pos tl
          omega
        have ht := (ih fuel (by omega)).1 t B off (encTags tl ++ rest)
          hwf.1 hfuel.1 h
        have hrest : B.drop (off + (encPayload t).length) = encTags tl ++ rest :=
          drop_append_step h
        have he := (ih fuel (by omega)).2.2.1 et tl B
          (off + (encPayload t).length) rest hwf.2 hall.2 hfuel.2 hrest
        rw [show lenTags (.cons t tl) = lenTags tl + 1 by simp [lenTags]; omega]
        rw [hall.1] at ht
        simp only [readElemsF, ht, he, jsOfTags]
        simp [encTags]
        omega
    · -- compound bodies
      intro fs B off rest acc hwf hfl h
      match fuel, hfl with
      | 0, hfl => exact absurd hfl (by have := fieldsFuel_pos fs; omega)
      | fuel + 1, hfl =>
      cases fs with
      | fnil =>
        simp only [encFields, List.nil_append] at h
        obtain ⟨hb, _⟩ := drop_cons_step h
        have hu := readUByte_at hb
        simp [readCompoundF, hu, jsOfFieldsAcc, encFields]
      | fcons k v tl =>
        simp only [rtFields, Bool.and_eq_true, decide_eq_true_eq,
          List.all_eq_true] at hwf
        obtain ⟨⟨⟨hk1, hk2⟩, hwfv⟩, hwtl⟩ := hwf
        simp only [encFields, List.cons_append, List.append_assoc] at h
        obtain ⟨hb, hrest⟩ := drop_cons_step h
        have hu := readUByte_at hb
        have hstr := readString_enc (by omega) hrest
        have hrest2 : B.drop (off + 1 + 2 + k.length)
            = encPayload v ++ (encFields tl ++ 0 :: rest) := by
          have := drop_append_step (l := encStr k) hrest
          rw [encStr_length] at this
          rw [show off + 1 + 2 + k.length = off + 1 + (2 + k.length) by omega]
          exact this
        have hfuel : tagFuel v ≤ fuel ∧ fieldsFuel tl ≤ fuel := by
          simp only [fieldsFuel] at hfl
          have := tagFuel_pos v
          have := fieldsFuel_pos tl
          omega
        have hv := (ih fuel (by omega)).1 v B (off + 1 + 2 + k.length)
          (encFields tl ++ 0 :: rest) hwfv hfuel.1 hrest2
        have hrest3 : B.drop (off + 1 + 2 + k.length + (encPayload v).length)
            = encFields tl ++ 0 :: rest := drop_append_step hrest2
        have hc := (ih fuel (by omega)).2.2.2 tl B
          (off + 1 + 2 + k.length + (encPayload v).length) rest
          (insertField acc k (jsOfTag v)) hwtl hfuel.2 hrest3
        have htne : tagType v ≠ 0 := by have := tagType_pos v; omega
        simp only [readCompoundF, hu, if_neg htne, hstr, hv, hc,
          jsOfFieldsAcc]
        simp [encFields, encStr_length]
        try omega

/-- Assigning a fresh key appends it. -/
theorem insertField_fresh {acc : Fields} {k : List Nat} {v : JSVal}
    (h : ∀ p ∈ acc, p.1 ≠ k) : insertField acc k v = acc ++ [(k, v)] := by
  induction acc with
  | nil => rfl
  | cons p acc ih =>
    simp only [insertField]
    rw [if_neg (h p (by simp))]
    rw [ih (fun q hq => h q (by simp [hq]))]
    simp

/-- With pairwise-distinct keys none of which is already present, the
assignment fold is plain append of the ordered field images. -/
theorem jsOfFieldsAcc_plain :
    ∀ (fs : TagFields) (acc : Fields), (fkeys fs).Nodup →
      (∀ k ∈ fkeys fs, ∀ p ∈ acc, p.1 ≠ k) →
      jsOfFieldsAcc acc fs = acc ++ jsFieldsPlain fs
  | .fnil, acc, _, _ => by simp [jsOfFieldsAcc, jsFieldsPlain]
  | .fcons k v tl, acc, hnd, hdis => by
    simp only [fkeys, List.nodup_cons] at hnd
    simp only [jsOfFieldsAcc, jsFieldsPlain]
    rw [insertField_fresh (hdis k (by simp [fkeys]))]
    rw [jsOfFieldsAcc_plain tl (acc ++ [(k, jsOfTag v)]) hnd.2 ?_]
    · simp
    · intro k' hk' p hp
      rcases List.mem_append.1 hp with hp | hp
      · exact hdis k' (by simp [fkeys, hk']) p hp
      · simp at hp
        rw [hp]
        intro he
        simp at he
        exact hnd.1 (he ▸ hk')

/-- Decoding an encoded document (root discriminant, root name, compound
payload) with sufficient fuel yields the name, the assignment-folded field
images, and consumes the whole buffer.  Duplicate keys are allowed. -/
theorem parse_encAcc {nm : List Nat} {fs : TagFields} {fuel : Nat}
    (hnm : nm.length < 32768) (hwf : rtFields fs = true)
    (hfl : fieldsFuel fs ≤ fuel) :
    parseF fuel (encodeRoot nm fs)
      = .ok ((nm, jsOfFieldsAcc [] fs), (encodeRoot nm fs).length) := by
  set B := encodeRoot nm fs with hB
  have hdrop0 : B.drop 0 = 10 :: (encStr nm ++ (encFields fs ++ 0 :: [])) := by
    simp [hB, encodeRoot, encPayload]
  obtain ⟨hb, hrest⟩ := drop_cons_step hdrop0
  have hu := readUByte_at hb
  have hstr := readString_enc hnm hrest
  have hrest2 : B.drop (0 + 1 + 2 + nm.length) = encFields fs ++ 0 :: [] := by
    have := drop_append_step (l := encStr nm) hrest
    rw [encStr_length] at this
    rw [show 0 + 1 + 2 + nm.length = 0 + 1 + (2 + nm.length) by omega]
    exact this
  have hc := (dec_enc fuel).2.2.2 fs B (0 + 1 + 2 + nm.length) [] [] hwf hfl
    hrest2
  simp only [parseF, hu, if_pos rfl, hstr, hc]
  have hlen : B.length = 0 + 1 + 2 + nm.length + ((encFields fs).length + 1) := by
    simp [hB, encodeRoot, encPayload, encStr_length]
    omega
  rw [← hlen]
  simp

/-- Decoding an encoded document with pairwise-distinct compound keys
yields the plain ordered field images. -/
theorem parse_enc {nm : List Nat} {fs : TagFields} {fuel : Nat}
    (hnm : nm.length < 32768) (hwf : rtFields fs = true)
    (hnd : (fkeys fs).Nodup) (hfl : fieldsFuel fs ≤ fuel) :
    parseF fuel (encodeRoot nm fs)
      = .ok ((nm, jsFieldsPlain fs), (encodeRoot nm fs).length) := by
  have := parse_encAcc hnm hwf hfl
  rwa [jsOfFieldsAcc_plain fs [] hnd (by simp)] at this

/-! ### Truncation machinery: cursor bounds, fuel monotonicity, and
stability of a successful run under extension of the buffer beyond the
consumed region. -/

/-- A successful byte read lies inside the buffer. -/
theorem getByte_lt {B : Bytes} {i v : Nat} (h : getByte B i = .ok v) :
    i < B.length := by
  unfold getByte at h
  by_contra hc
  rw [List.get?_eq_none.mpr (by omega)] at h
  exact absurd h (by simp)

/-- Cursor movement of a block read: exactly `k` forward, and within the
buffer when the block is non-empty. -/
theorem readBE_bounds {k : Nat} {B : Bytes} {off v o2 : Nat}
    (h : readBE k B off = .ok (v, o2)) :
    o2 = off + k ∧ (k = 0 ∨ o2 ≤ B.length) := by
  induction k generalizing off v with
  | zero =>
    simp only [readBE] at h
    cases h
    simp
  | succ k ih =>
    simp only [readBE] at h
    cases hg : getByte B off with
    | error e => rw [hg] at h; exact absurd h (by simp)
    | ok b =>
      rw [hg] at h
      cases hr : readBE k B (off + 1) with
      | error e => rw [hr] at h; exact absurd h (by simp)
      | ok p =>
        obtain ⟨w, o⟩ := p
        rw [hr] at h
        cases h
        obtain ⟨he, hb⟩ := ih hr
        have hlt := getByte_lt hg
        constructor
        · omega
        · right
          rcases hb with hb | hb <;> omega

/-- Cursor movement of a string read: forward, and within the buffer. -/
theorem readString_bounds {B : Bytes} {off o2 : Nat} {s : Bytes}
    (h : readString B off = .ok (s, o2)) :
    off + 2 ≤ o2 ∧ o2 ≤ B.length := by
  unfold readString readShort at h
  cases hr : readBE 2 B off with
  | error e => rw [hr] at h; exact absurd h (by simp)
  | ok p =>
    obtain ⟨v, o1⟩ := p
    rw [hr] at h
    obtain ⟨he, hb⟩ := readBE_bounds hr
    simp only at h
    split at h
    · cases h
      omega
    · split at h
      · cases h
        omega
      · exact absurd h (by simp)

/-- Cursor movement of a fixed-width element run. -/
theorem readInts_bounds {c w : Nat} {B : Bytes} {off o2 : Nat} {vs : List Int}
    (hw : 0 < w) (h : readInts c w B off = .ok (vs, o2)) :
    off ≤ o2 ∧ (o2 = off ∨ o2 ≤ B.length) := by
  induction c generalizing off vs o2 with
  | zero =>
    simp only [readInts] at h
    cases h
    simp
  | succ c ih =>
    simp only [readInts] at h
    split at h
    · exact absurd h (by simp)
    · rename_i v o1 hr
      split at h
      · exact absurd h (by simp)
      · rename_i ws o hr2
        simp only [Except.ok.injEq, Prod.mk.injEq] at h
        obtain ⟨hv, ho⟩ := h
        subst ho
        obtain ⟨he, hb⟩ := readBE_bounds hr
        obtain ⟨he2, hb2⟩ := ih hr2
        constructor
        · omega
        · rcases hb with hb | hb
          · right; omega
          · rcases hb2 with hb2 | hb2
            · right; omega
            · right; omega

/-- Cursor movement of a long read. -/
theorem readLong_bounds {B : Bytes} {off o2 : Nat} {v : Int}
    (h : readLong B off = .ok (v, o2)) :
    o2 = off + 8 ∧ o2 ≤ B.length := by
  unfold readLong at h
  split at h
  · exact absurd h (by simp)
  · rename_i hi o1 hr
    split at h
    · exact absurd h (by simp)
    · rename_i lo o hr2
      simp only [Except.ok.injEq, Prod.mk.injEq] at h
      obtain ⟨hv, ho⟩ := h
      subst ho
      obtain ⟨he, hb⟩ := readBE_bounds hr
      obtain ⟨he2, hb2⟩ := readBE_bounds hr2
      constructor <;> omega

/-- Cursor movement of a long-element run. -/
theorem readLongs_bounds {c : Nat} {B : Bytes} {off o2 : Nat} {vs : List Int}
    (h : readLongs c B off = .ok (vs, o2)) :
    off ≤ o2 ∧ (o2 = off ∨ o2 ≤ B.length) := by
  induction c generalizing off vs o2 with
  | zero =>
    simp only [readLongs] at h
    cases h
    simp
  | succ c ih =>
    simp only [readLongs] at h
    split at h
    · exact absurd h (by simp)
    · rename_i v o1 hr
      split at h
      · exact absurd h (by simp)
      · rename_i ws o hr2
        simp only [Except.ok.injEq, Prod.mk.injEq] at h
        obtain ⟨hv, ho⟩ := h
        subst ho
        obtain ⟨he, hb⟩ := readLong_bounds hr
        obtain ⟨he2, hb2⟩ := ih hr2
        constructor
        · omega
        · right
          rcases hb2 with hb2 | hb2 <;> omega

/-- Cursor movement of a byte-array read. -/
theorem readByteArray_bounds {B : Bytes} {off o2 : Nat} {vs : List Int}
    (h : readByteArray B off = .ok (vs, o2)) :
    off ≤ o2 ∧ o2 ≤ B.length := by
  unfold readByteArray at h
  split at h
  · exact absurd h (by simp)
  · rename_i v o1 hr
    split at h
    · exact absurd h (by simp)
    · unfold readInt at hr
      split at hr
      · exact absurd hr (by simp)
      · rename_i u o hbe
        simp only [Except.ok.injEq, Prod.mk.injEq] at hr
        obtain ⟨he, hb⟩ := readBE_bounds hbe
        obtain ⟨h1, h2⟩ := readInts_bounds (by omega) h
        constructor <;> omega

/-- Cursor movement of an int-array read. -/
theorem readIntArray_bounds {B : Bytes} {off o2 : Nat} {vs : List Int}
    (h : readIntArray B off = .ok (vs, o2)) :
    off ≤ o2 ∧ o2 ≤ B.length := by
  unfold readIntArray at h
  split at h
  · exact absurd h (by simp)
  · rename_i v o1 hr
    split at h
    · exact absurd h (by simp)
    · unfold readInt at hr
      split at hr
      · exact absurd hr (by simp)
      · rename_i u o hbe
        simp only [Except.ok.injEq, Prod.mk.injEq] at hr
        obtain ⟨he, hb⟩ := readBE_bounds hbe
        obtain ⟨h1, h2⟩ := readInts_bounds (by omega) h
        constructor <;> omega

/-- Cursor movement of a long-array read. -/
theorem readLongArray_bounds {B : Bytes} {off o2 : Nat} {vs : List Int}
    (h : readLongArray B off = .ok (vs, o2)) :
    off ≤ o2 ∧ o2 ≤ B.length := by
  unfold readLongArray at h
  split at h
  · exact absurd h (by simp)
  · rename_i v o1 hr
    unfold readInt at hr
    split at hr
    · exact absurd hr (by simp)
    · rename_i u o hbe
      simp only [Except.ok.injEq, Prod.mk.injEq] at hr
      obtain ⟨he, hb⟩ := readBE_bounds hbe
      obtain ⟨h1, h2⟩ := readLongs_bounds h
      constructor <;> omega

/-- Cursor movement of the recursive readers: the cursor never moves
backwards, and whenever it moves at all it stays within the buffer. -/
theorem read_bounds (fuel : Nat) :
    (∀ t B off v o2, readTagF fuel t B off = .ok (v, o2) →
      off ≤ o2 ∧ (o2 = off ∨ o2 ≤ B.length))
    ∧ (∀ B off v o2, readListF fuel B off = .ok (v, o2) →
      off ≤ o2 ∧ o2 ≤ B.length)
    ∧ (∀ et c B off vs o2, readElemsF fuel et c B off = .ok (vs, o2) →
      off ≤ o2 ∧ (o2 = off ∨ o2 ≤ B.length))
    ∧ (∀ B off acc fs o2, readCompoundF fuel B off acc = .ok (fs, o2) →
      off ≤ o2 ∧ o2 ≤ B.length) := by
  induction fuel with
  | zero =>
    refine ⟨?_, ?_, ?_, ?_⟩
    · intro t B off v o2 h; simp [readTagF] at h
    · intro B off v o2 h; simp [readListF] at h
    · intro et c B off vs o2 h; simp [readElemsF] at h
    · intro B off acc fs o2 h; simp [readCompoundF] at h
  | succ fuel ih =>
    obtain ⟨ihT, ihL, ihE, ihC⟩ := ih
    refine ⟨?_, ?_, ?_, ?_⟩
    · intro t B off v o2 h
      match t with
      | 0 =>
        simp only [readTagF] at h
        simp only [Except.ok.injEq, Prod.mk.injEq] at h
        omega
      | 1 =>
        simp only [readTagF] at h
        split at h
        · exact absurd h (by simp)
        · rename_i m o hr
          simp only [Except.ok.injEq, Prod.mk.injEq] at h
          unfold readByte at hr
          split at hr
          · exact absurd hr (by simp)
          · rename_i u o' hu
            simp only [Except.ok.injEq, Prod.mk.injEq] at hr
            obtain ⟨hb1, hb2⟩ := readBE_bounds hu
            omega
      | 2 =>
        simp only [readTagF] at h
        split at h
        · exact absurd h (by simp)
        · rename_i m o hr
          simp only [Except.ok.injEq, Prod.mk.injEq] at h
          unfold readShort at hr
          split at hr
          · exact absurd hr (by simp)
          · rename_i u o' hu
            simp only [Except.ok.injEq, Prod.mk.injEq] at hr
            obtain ⟨hb1, hb2⟩ := readBE_bounds hu
            omega
      | 3 =>
        simp only [readTagF] at h
        split at h
        · exact absurd h (by simp)
        · rename_i m o hr
          simp only [Except.ok.injEq, Prod.mk.injEq] at h
          unfold readInt at hr
          split at hr
          · exact absurd hr (by simp)
          · rename_i u o' hu
            simp only [Except.ok.injEq, Prod.mk.injEq] at hr
            obtain ⟨hb1, hb2⟩ := readBE_bounds hu
            omega
      | 4 =>
        simp only [readTagF] at h
        split at h
        · exact absurd h (by simp)
        · rename_i m o hr
          simp only [Except.ok.injEq, Prod.mk.injEq] at h
          obtain ⟨hb1, hb2⟩ := readLong_bounds hr
          omega
      | 5 =>
        simp only [readTagF] at h
        split at h
        · exact absurd h (by simp)
        · rename_i m o hr
          simp only [Except.ok.injEq, Prod.mk.injEq] at h
          obtain ⟨hb1, hb2⟩ := readBE_bounds hr
          omega
      | 6 =>
        simp only [readTagF] at h
        split at h
        · exact absurd h (by simp)
        · rename_i m o hr
          simp only [Except.ok.injEq, Prod.mk.injEq] at h
          obtain ⟨hb1, hb2⟩ := readBE_bounds hr
          omega
      | 7 =>
        simp only [readTagF] at h
        split at h
        · exact absurd h (by simp)
        · rename_i vs o hr
          simp only [Except.ok.injEq, Prod.mk.injEq] at h
          obtain ⟨hb1, hb2⟩ := readByteArray_bounds hr
          omega
      | 8 =>
        simp only [readTagF] at h
        split at h
        · exact absurd h (by simp)
        · rename_i s o hr
          simp only [Except.ok.injEq, Prod.mk.injEq] at h
          obtain ⟨hb1, hb2⟩ := readString_bounds hr
          omega
      | 9 =>
        simp only [readTagF] at h
        obtain ⟨h1, h2⟩ := ihL B off v o2 h
        omega
      | 10 =>
        simp only [readTagF] at h
        split at h
        · exact absurd h (by simp)
        · rename_i fs o hr
          simp only [Except.ok.injEq, Prod.mk.injEq] at h
          obtain ⟨hb1, hb2⟩ := ihC B off [] fs o hr
          omega
      | 11 =>
        simp only [readTagF] at h
        split at h
        · exact absurd h (by simp)
        · rename_i vs o hr
          simp only [Except.ok.injEq, Prod.mk.injEq] at h
          obtain ⟨hb1, hb2⟩ := readIntArray_bounds hr
          omega
      | 12 =>
        simp only [readTagF] at h
        split at h
        · exact absurd h (by simp)
        · rename_i vs o hr
          simp only [Except.ok.injEq, Prod.mk.injEq] at h
          obtain ⟨hb1, hb2⟩ := readLongArray_bounds hr
          omega
      | (t + 13) =>
        simp only [readTagF] at h
        exact absurd h (by simp)
    · intro B off v o2 h
      simp only [readListF] at h
      split at h
      · exact absurd h (by simp)
      · rename_i it o1 hu
        split at h
        · exact absurd h (by simp)
        · rename_i len o1' hint
          split at h
          · exact absurd h (by simp)
          · rename_i vs o hels
            simp only [Except.ok.injEq, Prod.mk.injEq] at h
            obtain ⟨hu1, hu2⟩ := readBE_bounds hu
            unfold readInt at hint
            split at hint
            · exact absurd hint (by simp)
            · rename_i u o'' hbe
              simp only [Except.ok.injEq, Prod.mk.injEq] at hint
              obtain ⟨hb1, hb2⟩ := readBE_bounds hbe
              obtain ⟨he1, he2⟩ := ihE it len.toNat B o1' vs o hels
              omega
    · intro et c B off vs o2 h
      match c with
      | 0 =>
        simp only [readElemsF] at h
        simp only [Except.ok.injEq, Prod.mk.injEq] at h
        omega
      | c + 1 =>
        simp only [readElemsF] at h
        split at h
        · exact absurd h (by simp)
        · rename_i v o1 ht
          split at h
          · exact absurd h (by simp)
          · rename_i ws o hr
            simp only [Except.ok.injEq, Prod.mk.injEq] at h
            obtain ⟨h1, h2⟩ := ihT et B off v o1 ht
            obtain ⟨h3, h4⟩ := ihE et c B o1 ws o hr
            constructor
            · omega
            · rcases h2 with h2 | h2
              · rcases h4 with h4 | h4
                · left; omega
                · right; omega
              · rcases h4 with h4 | h4
                · right; omega
                · right; omega
    · intro B off acc fs o2 h
      simp only [readCompoundF] at h
      split at h
      · exact absurd h (by simp)
      · rename_i t o1 hu
        obtain ⟨hu1, hu2⟩ := readBE_bounds hu
        split at h
        · simp only [Except.ok.injEq, Prod.mk.injEq] at h
          omega
        · split at h
          · exact absurd h (by simp)
          · rename_i k o2' hstr
            split at h
            · exact absurd h (by simp)
            · rename_i v o3 htag
              obtain ⟨hs1, hs2⟩ := readString_bounds hstr
              obtain ⟨ht1, ht2⟩ := ihT t B o2' v o3 htag
              obtain ⟨hc1, hc2⟩ := ihC B o3 (insertField acc k v) fs o2 h
              constructor <;> omega

/-- A successful run is stable under one more unit of fuel. -/
theorem fuel_mono (fuel : Nat) :
    (∀ t B off r, readTagF fuel t B off = .ok r →
      readTagF (fuel + 1) t B off = .ok r)
    ∧ (∀ B off r, readListF fuel B off = .ok r →
      readListF (fuel + 1) B off = .ok r)
    ∧ (∀ et c B off r, readElemsF fuel et c B off = .ok r →
      readElemsF (fuel + 1) et c B off = .ok r)
    ∧ (∀ B off acc r, readCompoundF fuel B off acc = .ok r →
      readCompoundF (fuel + 1) B off acc = .ok r) := by
  induction fuel with
  | zero =>
    refine ⟨?_, ?_, ?_, ?_⟩
    · intro t B off r h; simp [readTagF] at h
    · intro B off r h; simp [readListF] at h
    · intro et c B off r h; simp [readElemsF] at h
    · intro B off acc r h; simp [readCompoundF] at h
  | succ fuel ih =>
    obtain ⟨ihT, ihL, ihE, ihC⟩ := ih
    refine ⟨?_, ?_, ?_, ?_⟩
    · intro t B off r h
      match t with
      | 0 => simpa only [readTagF] using h
      | 1 => simpa only [readTagF] using h
      | 2 => simpa only [readTagF] using h
      | 3 => simpa only [readTagF] using h
      | 4 => simpa only [readTagF] using h
      | 5 => simpa only [readTagF] using h
      | 6 => simpa only [readTagF] using h
      | 7 => simpa only [readTagF] using h
      | 8 => simpa only [readTagF] using h
      | 9 =>
        simp only [readTagF] at h ⊢
        exact ihL B off r h
      | 10 =>
        simp only [readTagF] at h ⊢
        split at h
        · exact absurd h (by simp)
        · rename_i fs o hr
          simp only [ihC B off [] (fs, o) hr]
          exact h
      | 11 => simpa only [readTagF] using h
      | 12 => simpa only [readTagF] using h
      | (t + 13) => simpa only [readTagF] using h
    · intro B off r h
      simp only [readListF] at h ⊢
      split at h
      · exact absurd h (by simp)
      · rename_i it o1 hu
        split at h
        · exact absurd h (by simp)
        · rename_i len o2 hint
          split at h
          · exact absurd h (by simp)
          · rename_i vs o hels
            simp only [ihE it len.toNat B o2 (vs, o) hels]
            exact h
    · intro et c B off r h
      match c with
      | 0 => simpa only [readElemsF] using h
      | c + 1 =>
        simp only [readElemsF] at h ⊢
        split at h
        · exact absurd h (by simp)
        · rename_i v o1 ht
          split at h
          · exact absurd h (by simp)
          · rename_i ws o hr
            simp only [ihT et B off (v, o1) ht, ihE et c B o1 (ws, o) hr]
            exact h
    · intro B off acc r h
      rw [readCompoundF.eq_2] at h
      rw [readCompoundF.eq_2]
      cases hu : readUByte B off with
      | error e => simp only [hu] at h; exact absurd h (by simp)
      | ok p =>
        obtain ⟨t, o1⟩ := p
        simp only [hu] at h ⊢
        by_cases ht0 : t = 0
        · rw [if_pos ht0] at h ⊢; exact h
        · rw [if_neg ht0] at h ⊢
          cases hstr : readString B o1 with
          | error e => simp only [hstr] at h; exact absurd h (by simp)
          | ok q =>
            obtain ⟨k, o2⟩ := q
            simp only [hstr] at h ⊢
            cases htag : readTagF fuel t B o2 with
            | error e => simp only [htag] at h; exact absurd h (by simp)
            | ok w =>
              obtain ⟨v, o3⟩ := w
              simp only [htag] at h
              simp only [ihT t B o2 (v, o3) htag]
              exact ihC B o3 (insertField acc k v) r h

/-- A successful run is stable under any amount of additional fuel. -/
theorem fuel_mono_le {f g : Nat} (hfg : f ≤ g) :
    (∀ t B off r, readTagF f t B off = .ok r → readTagF g t B off = .ok r)
    ∧ (∀ B off acc r, readCompoundF f B off acc = .ok r →
      readCompoundF g B off acc = .ok r) := by
  induction g with
  | zero =>
    have : f = 0 := by omega
    subst this
    exact ⟨fun _ _ _ _ h => h, fun _ _ _ _ h => h⟩
  | succ g ih =>
    by_cases hf : f = g + 1
    · subst hf
      exact ⟨fun _ _ _ _ h => h, fun _ _ _ _ h => h⟩
    · have hle : f ≤ g := by omega
      obtain ⟨h1, h2⟩ := ih hle
      exact ⟨fun t B off r h => (fuel_mono g).1 t B off r (h1 t B off r h),
        fun B off acc r h => (fuel_mono g).2.2.2 B off acc r (h2 B off acc r h)⟩

/-- Taken slices agree when the underlying bytes agree on the sliced
range. -/
theorem take_drop_agree {B B' : Bytes} {o1 n : Nat}
    (hag : ∀ i, o1 ≤ i → i < o1 + n → B'.get? i = B.get? i) :
    (B'.drop o1).take n = (B.drop o1).take n := by
  refine List.ext_get?_iff.mpr fun j => ?_
  by_cases hj : j < n
  · rw [List.get?_eq_getElem?, List.get?_eq_getElem?,
      List.getElem?_take_of_lt hj, List.getElem?_take_of_lt hj,
      List.getElem?_drop, List.getElem?_drop]
    have := hag (o1 + j) (by omega) (by omega)
    rwa [List.get?_eq_getElem?, List.get?_eq_getElem?] at this
  · rw [List.get?_eq_getElem?, List.get?_eq_getElem?,
      List.getElem?_eq_none, List.getElem?_eq_none]
    · simp only [List.length_take]
      omega
    · simp only [List.length_take]
      omega

/-- A block read sees only the bytes it consumes. -/
theorem readBE_agree {k : Nat} {B B' : Bytes} {off v o2 : Nat}
    (h : readBE k B off = .ok (v, o2))
    (hag : ∀ i, off ≤ i → i < o2 → B'.get? i = B.get? i) :
    readBE k B' off = .ok (v, o2) := by
  induction k generalizing off v with
  | zero =>
    simp only [readBE] at h ⊢
    exact h
  | succ k ih =>
    obtain ⟨he, _⟩ := readBE_bounds h
    simp only [readBE] at h ⊢
    cases hg : getByte B off with
    | error e => rw [hg] at h; exact absurd h (by simp)
    | ok b =>
      rw [hg] at h
      cases hr : readBE k B (off + 1) with
      | error e => rw [hr] at h; exact absurd h (by simp)
      | ok p =>
        obtain ⟨w, o⟩ := p
        rw [hr] at h
        simp only [Except.ok.injEq, Prod.mk.injEq] at h
        obtain ⟨hv, ho⟩ := h
        subst ho
        obtain ⟨he2, _⟩ := readBE_bounds hr
        have hg' : getByte B' off = .ok b := by
          unfold getByte at hg ⊢
          rw [hag off (by omega) (by omega)]
          exact hg
        have hr' := ih hr (fun i h1 h2 => hag i (by omega) (by omega))
        simp only [hg', hr', hv]

/-- A string read sees only the bytes it consumes, provided the extended
buffer is at least as long. -/
theorem readString_agree {B B' : Bytes} {off o2 : Nat} {s : Bytes}
    (h : readString B off = .ok (s, o2))
    (hag : ∀ i, off ≤ i → i < o2 → B'.get? i = B.get? i)
    (hlen : B.length ≤ B'.length) :
    readString B' off = .ok (s, o2) := by
  obtain ⟨hb1, hb2⟩ := readString_bounds h
  unfold readString readShort at h ⊢
  cases hr : readBE 2 B off with
  | error e => rw [hr] at h; exact absurd h (by simp)
  | ok p =>
    obtain ⟨u, o1⟩ := p
    rw [hr] at h
    obtain ⟨he, _⟩ := readBE_bounds hr
    have hr' := readBE_agree hr (fun i h1 h2 => hag i (by omega) (by omega))
    rw [hr']
    simp only at h ⊢
    split at h
    · rename_i hle
      rw [if_pos hle]
      exact h
    · rename_i hle
      rw [if_neg hle]
      split at h
      · rename_i hin
        simp only [Except.ok.injEq, Prod.mk.injEq] at h
        obtain ⟨hs, ho⟩ := h
        rw [if_pos (by omega)]
        rw [take_drop_agree (fun i h1 h2 => hag i (by omega) (by omega))]
        rw [hs, ho]
      · exact absurd h (by simp)

/-- A fixed-width element run sees only the bytes it consumes. -/
theorem readInts_agree {c w : Nat} {B B' : Bytes} {off o2 : Nat}
    {vs : List Int} (hw : 0 < w) (h : readInts c w B off = .ok (vs, o2))
    (hag : ∀ i, off ≤ i → i < o2 → B'.get? i = B.get? i) :
    readInts c w B' off = .ok (vs, o2) := by
  induction c generalizing off vs o2 with
  | zero =>
    simp only [readInts] at h ⊢
    exact h
  | succ c ih =>
    simp only [readInts] at h ⊢
    cases hr : readBE w B off with
    | error e => rw [hr] at h; exact absurd h (by simp)
    | ok p =>
      obtain ⟨v, o1⟩ := p
      simp only [hr] at h
      cases hr2 : readInts c w B o1 with
      | error e => rw [hr2] at h; exact absurd h (by simp)
      | ok q =>
        obtain ⟨ws, o⟩ := q
        rw [hr2] at h
        simp only [Except.ok.injEq, Prod.mk.injEq] at h
        obtain ⟨hv, ho⟩ := h
        subst ho
        obtain ⟨he, _⟩ := readBE_bounds hr
        obtain ⟨he2, hb2⟩ := readInts_bounds hw hr2
        have hr' := readBE_agree hr (fun i h1 h2 => hag i (by omega) (by omega))
        have hr2' := ih hr2 (fun i h1 h2 => hag i (by omega) (by omega))
        simp only [hr', hr2', hv]

/-- A long read sees only the bytes it consumes. -/
theorem readLong_agree {B B' : Bytes} {off o2 : Nat} {v : Int}
    (h : readLong B off = .ok (v, o2))
    (hag : ∀ i, off ≤ i → i < o2 → B'.get? i = B.get? i) :
    readLong B' off = .ok (v, o2) := by
  obtain ⟨he, _⟩ := readLong_bounds h
  unfold readLong at h ⊢
  cases hr : readBE 4 B off with
  | error e => rw [hr] at h; exact absurd h (by simp)
  | ok p =>
    obtain ⟨hi, o1⟩ := p
    simp only [hr] at h
    cases hr2 : readBE 4 B o1 with
    | error e => rw [hr2] at h; exact absurd h (by simp)
    | ok q =>
      obtain ⟨lo, o⟩ := q
      rw [hr2] at h
      obtain ⟨h1, _⟩ := readBE_bounds hr
      obtain ⟨h2, _⟩ := readBE_bounds hr2
      simp only [Except.ok.injEq, Prod.mk.injEq] at h
      obtain ⟨hv, ho⟩ := h
      subst ho
      have hr' := readBE_agree hr (fun i ha hb => hag i (by omega) (by omega))
      have hr2' := readBE_agree hr2 (fun i ha hb => hag i (by omega) (by omega))
      simp only [hr', hr2', hv]

/-- A long-element run sees only the bytes it consumes. -/
theorem readLongs_agree {c : Nat} {B B' : Bytes} {off o2 : Nat}
    {vs : List Int} (h : readLongs c B off = .ok (vs, o2))
    (hag : ∀ i, off ≤ i → i < o2 → B'.get? i = B.get? i) :
    readLongs c B' off = .ok (vs, o2) := by
  induction c generalizing off vs o2 with
  | zero =>
    simp only [readLongs] at h ⊢
    exact h
  | succ c ih =>
    simp only [readLongs] at h ⊢
    cases hr : readLong B off with
    | error e => rw [hr] at h; exact absurd h (by simp)
    | ok p =>
      obtain ⟨v, o1⟩ := p
      simp only [hr] at h
      cases hr2 : readLongs c B o1 with
      | error e => rw [hr2] at h; exact absurd h (by simp)
      | ok q =>
        obtain ⟨ws, o⟩ := q
        rw [hr2] at h
        simp only [Except.ok.injEq, Prod.mk.injEq] at h
        obtain ⟨hv, ho⟩ := h
        subst ho
        obtain ⟨he, _⟩ := readLong_bounds hr
        obtain ⟨he2, hb2⟩ := readLongs_bounds hr2
        have hr' := readLong_agree hr (fun i h1 h2 => hag i (by omega) (by omega))
        have hr2' := ih hr2 (fun i h1 h2 => hag i (by omega) (by omega))
        simp only [hr', hr2', hv]

/-- An int read sees only the bytes it consumes. -/
theorem readInt_agree {B B' : Bytes} {off o1 : Nat} {len : Int}
    (h : readInt B off = .ok (len, o1))
    (hag : ∀ i, off ≤ i → i < o1 → B'.get? i = B.get? i) :
    readInt B' off = .ok (len, o1) := by
  unfold readInt at h ⊢
  split at h
  · exact absurd h (by simp)
  · rename_i u o hbe
    simp only [Except.ok.injEq, Prod.mk.injEq] at h
    obtain ⟨hv, ho⟩ := h
    subst ho
    obtain ⟨he, _⟩ := readBE_bounds hbe
    have := readBE_agree hbe (fun i h1 h2 => hag i (by omega) (by omega))
    simp only [this, hv]

/-- An unsigned-byte read sees only its byte. -/
theorem readUByte_agree {B B' : Bytes} {off o1 v : Nat}
    (h : readUByte B off = .ok (v, o1))
    (hag : ∀ i, off ≤ i → i < o1 → B'.get? i = B.get? i) :
    readUByte B' off = .ok (v, o1) := by
  unfold readUByte at h ⊢
  obtain ⟨he, _⟩ := readBE_bounds h
  exact readBE_agree h hag

/-- A byte-array read sees only the bytes it consumes. -/
theorem readByteArray_agree {B B' : Bytes} {off o2 : Nat} {vs : List Int}
    (h : readByteArray B off = .ok (vs, o2))
    (hag : ∀ i, off ≤ i → i < o2 → B'.get? i = B.get? i) :
    readByteArray B' off = .ok (vs, o2) := by
  unfold readByteArray at h ⊢
  split at h
  · exact absurd h (by simp)
  · rename_i len o1 hr
    split at h
    · exact absurd h (by simp)
    · rename_i hneg
      unfold readInt at hr
      split at hr
      · exact absurd hr (by simp)
      · rename_i u o hbe
        simp only [Except.ok.injEq, Prod.mk.injEq] at hr
        obtain ⟨hv, ho⟩ := hr
        subst ho
        obtain ⟨he, _⟩ := readBE_bounds hbe
        obtain ⟨hl1, hl2⟩ := readInts_bounds (by omega) h
        have hbe' := readBE_agree hbe (fun i h1 h2 => hag i (by omega) (by omega))
        have h' := readInts_agree (by omega) h
          (fun i h1 h2 => hag i (by omega) (by omega))
        simp only [readInt, hbe', hv, if_neg hneg]
        exact h'

/-- An int-array read sees only the bytes it consumes. -/
theorem readIntArray_agree {B B' : Bytes} {off o2 : Nat} {vs : List Int}
    (h : readIntArray B off = .ok (vs, o2))
    (hag : ∀ i, off ≤ i → i < o2 → B'.get? i = B.get? i) :
    readIntArray B' off = .ok (vs, o2) := by
  unfold readIntArray at h ⊢
  split at h
  · exact absurd h (by simp)
  · rename_i len o1 hr
    split at h
    · exact absurd h (by simp)
    · rename_i hneg
      unfold readInt at hr
      split at hr
      · exact absurd hr (by simp)
      · rename_i u o hbe
        simp only [Except.ok.injEq, Prod.mk.injEq] at hr
        obtain ⟨hv, ho⟩ := hr
        subst ho
        obtain ⟨he, _⟩ := readBE_bounds hbe
        obtain ⟨hl1, hl2⟩ := readInts_bounds (by omega) h
        have hbe' := readBE_agree hbe (fun i h1 h2 => hag i (by omega) (by omega))
        have h' := readInts_agree (by omega) h
          (fun i h1 h2 => hag i (by omega) (by omega))
        simp only [readInt, hbe', hv, if_neg hneg]
        exact h'

/-- A long-array read sees only the bytes it consumes. -/
theorem readLongArray_agree {B B' : Bytes} {off o2 : Nat} {vs : List Int}
    (h : readLongArray B off = .ok (vs, o2))
    (hag : ∀ i, off ≤ i → i < o2 → B'.get? i = B.get? i) :
    readLongArray B' off = .ok (vs, o2) := by
  unfold readLongArray at h ⊢
  split at h
  · exact absurd h (by simp)
  · rename_i len o1 hr
    unfold readInt at hr
    split at hr
    · exact absurd hr (by simp)
    · rename_i u o hbe
      simp only [Except.ok.injEq, Prod.mk.injEq] at hr
      obtain ⟨hv, ho⟩ := hr
      subst ho
      obtain ⟨he, _⟩ := readBE_bounds hbe
      obtain ⟨hl1, hl2⟩ := readLongs_bounds h
      have hbe' := readBE_agree hbe (fun i h1 h2 => hag i (by omega) (by omega))
      have h' := readLongs_agree h (fun i h1 h2 => hag i (by omega) (by omega))
      simp only [readInt, hbe', hv]
      exact h'

/-- Cursor movement of an int read. -/
theorem readInt_bounds {B : Bytes} {off o1 : Nat} {len : Int}
    (h : readInt B off = .ok (len, o1)) : o1 = off + 4 ∧ o1 ≤ B.length := by
  unfold readInt at h
  split at h
  · exact absurd h (by simp)
  · rename_i u o hbe
    simp only [Except.ok.injEq, Prod.mk.injEq] at h
    obtain ⟨he, hb⟩ := readBE_bounds hbe
    omega

/-- Cursor movement of an unsigned-byte read. -/
theorem readUByte_bounds {B : Bytes} {off o1 v : Nat}
    (h : readUByte B off = .ok (v, o1)) : o1 = off + 1 ∧ o1 ≤ B.length := by
  unfold readUByte at h
  obtain ⟨he, hb⟩ := readBE_bounds h
  omega

/-- A signed byte read sees only its byte. -/
theorem readByte_agree {B B' : Bytes} {off o1 : Nat} {m : Int}
    (h : readByte B off = .ok (m, o1))
    (hag : ∀ i, off ≤ i → i < o1 → B'.get? i = B.get? i) :
    readByte B' off = .ok (m, o1) := by
  unfold readByte at h ⊢
  split at h
  · exact absurd h (by simp)
  · rename_i u o hbe
    simp only [Except.ok.injEq, Prod.mk.injEq] at h
    obtain ⟨hv, ho⟩ := h
    subst ho
    obtain ⟨he, _⟩ := readBE_bounds hbe
    have := readBE_agree hbe (fun i h1 h2 => hag i (by omega) (by omega))
    simp only [this, hv]

/-- A short read sees only the bytes it consumes. -/
theorem readShort_agree {B B' : Bytes} {off o1 : Nat} {m : Int}
    (h : readShort B off = .ok (m, o1))
    (hag : ∀ i, off ≤ i → i < o1 → B'.get? i = B.get? i) :
    readShort B' off = .ok (m, o1) := by
  unfold readShort at h ⊢
  split at h
  · exact absurd h (by simp)
  · rename_i u o hbe
    simp only [Except.ok.injEq, Prod.mk.injEq] at h
    obtain ⟨hv, ho⟩ := h
    subst ho
    obtain ⟨he, _⟩ := readBE_bounds hbe
    have := readBE_agree hbe (fun i h1 h2 => hag i (by omega) (by omega))
    simp only [this, hv]

/-- A successful recursive read depends only on the bytes strictly below
its final cursor position, provided the other buffer is at least as
long: decoding is stable under replacing the unread tail. -/
theorem read_agree (fuel : Nat) :
    (∀ t B B' off v o2, readTagF fuel t B off = .ok (v, o2) →
      (∀ i, off ≤ i → i < o2 → B'.get? i = B.get? i) →
      B.length ≤ B'.length → readTagF fuel t B' off = .ok (v, o2))
    ∧ (∀ B B' off v o2, readListF fuel B off = .ok (v, o2) →
      (∀ i, off ≤ i → i < o2 → B'.get? i = B.get? i) →
      B.length ≤ B'.length → readListF fuel B' off = .ok (v, o2))
    ∧ (∀ et c B B' off vs o2, readElemsF fuel et c B off = .ok (vs, o2) →
      (∀ i, off ≤ i → i < o2 → B'.get? i = B.get? i) →
      B.length ≤ B'.length → readElemsF fuel et c B' off = .ok (vs, o2))
    ∧ (∀ B B' off acc fs o2, readCompoundF fuel B off acc = .ok (fs, o2) →
      (∀ i, off ≤ i → i < o2 → B'.get? i = B.get? i) →
      B.length ≤ B'.length → readCompoundF fuel B' off acc = .ok (fs, o2)) := by
  induction fuel with
  | zero =>
    refine ⟨?_, ?_, ?_, ?_⟩
    · intro t B B' off v o2 h _ _; simp [readTagF] at h
    · intro B B' off v o2 h _ _; simp [readListF] at h
    · intro et c B B' off vs o2 h _ _; simp [readElemsF] at h
    · intro B B' off acc fs o2 h _ _; simp [readCompoundF] at h
  | succ fuel ih =>
    obtain ⟨ihT, ihL, ihE, ihC⟩ := ih
    refine ⟨?_, ?_, ?_, ?_⟩
    · intro t B B' off v o2 h hag hlen
      match t with
      | 0 =>
        simp only [readTagF] at h ⊢
        exact h
      | 1 =>
        simp only [readTagF] at h ⊢
        split at h
        · exact absurd h (by simp)
        · rename_i m o hr
          simp only [Except.ok.injEq, Prod.mk.injEq] at h
          obtain ⟨hv, ho⟩ := h
          subst ho
          have hr' := readByte_agree hr hag
          simp only [hr', hv]
      | 2 =>
        simp only [readTagF] at h ⊢
        split at h
        · exact absurd h (by simp)
        · rename_i m o hr
          simp only [Except.ok.injEq, Prod.mk.injEq] at h
          obtain ⟨hv, ho⟩ := h
          subst ho
          have hr' := readShort_agree hr hag
          simp only [hr', hv]
      | 3 =>
        simp only [readTagF] at h ⊢
        split at h
        · exact absurd h (by simp)
        · rename_i m o hr
          simp only [Except.ok.injEq, Prod.mk.injEq] at h
          obtain ⟨hv, ho⟩ := h
          subst ho
          have hr' := readInt_agree hr hag
          simp only [hr', hv]
      | 4 =>
        simp only [readTagF] at h ⊢
        split at h
        · exact absurd h (by simp)
        · rename_i m o hr
          simp only [Except.ok.injEq, Prod.mk.injEq] at h
          obtain ⟨hv, ho⟩ := h
          subst ho
          have hr' := readLong_agree hr hag
          simp only [hr', hv]
      | 5 =>
        simp only [readTagF] at h ⊢
        split at h
        · exact absurd h (by simp)
        · rename_i m o hr
          simp only [Except.ok.injEq, Prod.mk.injEq] at h
          obtain ⟨hv, ho⟩ := h
          subst ho
          have hr' := readBE_agree hr hag
          simp only [hr', hv]
      | 6 =>
        simp only [readTagF] at h ⊢
        split at h
        · exact absurd h (by simp)
        · rename_i m o hr
          simp only [Except.ok.injEq, Prod.mk.injEq] at h
          obtain ⟨hv, ho⟩ := h
          subst ho
          have hr' := readBE_agree hr hag
          simp only [hr', hv]
      | 7 =>
        simp only [readTagF] at h ⊢
        split at h
        · exact absurd h (by simp)
        · rename_i vs o hr
          simp only [Except.ok.injEq, Prod.mk.injEq] at h
          obtain ⟨hv, ho⟩ := h
          subst ho
          have hr' := readByteArray_agree hr hag
          simp only [hr', hv]
      | 8 =>
        simp only [readTagF] at h ⊢
        split at h
        · exact absurd h (by simp)
        · rename_i s o hr
          simp only [Except.ok.injEq, Prod.mk.injEq] at h
          obtain ⟨hv, ho⟩ := h
          subst ho
          have hr' := readString_agree hr hag hlen
          simp only [hr', hv]
      | 9 =>
        simp only [readTagF] at h ⊢
        exact ihL B B' off v o2 h hag hlen
      | 10 =>
        simp only [readTagF] at h ⊢
        split at h
        · exact absurd h (by simp)
        · rename_i fs o hr
          simp only [Except.ok.injEq, Prod.mk.injEq] at h
          obtain ⟨hv, ho⟩ := h
          subst ho
          have hr' := ihC B B' off [] fs o hr hag hlen
          simp only [hr', hv]
      | 11 =>
        simp only [readTagF] at h ⊢
        split at h
        · exact absurd h (by simp)
        · rename_i vs o hr
          simp only [Except.ok.injEq, Prod.mk.injEq] at h
          obtain ⟨hv, ho⟩ := h
          subst ho
          have hr' := readIntArray_agree hr hag
          simp only [hr', hv]
      | 12 =>
        simp only [readTagF] at h ⊢
        split at h
        · exact absurd h (by simp)
        · rename_i vs o hr
          simp only [Except.ok.injEq, Prod.mk.injEq] at h
          obtain ⟨hv, ho⟩ := h
          subst ho
          have hr' := readLongArray_agree hr hag
          simp only [hr', hv]
      | (t + 13) =>
        simp only [readTagF] at h
        exact absurd h (by simp)
    · intro B B' off v o2 h hag hlen
      simp only [readListF] at h ⊢
      split at h
      · exact absurd h (by simp)
      · rename_i it o1 hu
        split at h
        · exact absurd h (by simp)
        · rename_i len o1' hint
          split at h
          · exact absurd h (by simp)
          · rename_i vs o hels
            simp only [Except.ok.injEq, Prod.mk.injEq] at h
            obtain ⟨hv, ho⟩ := h
            subst ho
            obtain ⟨hu1, hu2⟩ := readUByte_bounds hu
            obtain ⟨hi1, hi2⟩ := readInt_bounds hint
            obtain ⟨he1, he2⟩ := (read_bounds fuel).2.2.1 it len.toNat B o1'
              vs o hels
            have hu' := readUByte_agree hu
              (fun i h1 h2 => hag i (by omega) (by omega))
            have hint' := readInt_agree hint
              (fun i h1 h2 => hag i (by omega) (by omega))
            have hels' := ihE it len.toNat B B' o1' vs o hels
              (fun i h1 h2 => hag i (by omega) (by omega)) hlen
            simp only [hu', hint', hels', hv]
    · intro et c B B' off vs o2 h hag hlen
      match c with
      | 0 =>
        simp only [readElemsF] at h ⊢
        exact h
      | c + 1 =>
        simp only [readElemsF] at h ⊢
        split at h
        · exact absurd h (by simp)
        · rename_i v o1 ht
          split at h
          · exact absurd h (by simp)
          · rename_i ws o hr
            simp only [Except.ok.injEq, Prod.mk.injEq] at h
            obtain ⟨hv, ho⟩ := h
            subst ho
            obtain ⟨ht1, ht2⟩ := (read_bounds fuel).1 et B off v o1 ht
            obtain ⟨hr1, hr2⟩ := (read_bounds fuel).2.2.1 et c B o1 ws o hr
            have ht' := ihT et B B' off v o1 ht
              (fun i h1 h2 => hag i (by omega) (by omega)) hlen
            have hr' := ihE et c B B' o1 ws o hr
              (fun i h1 h2 => hag i (by omega) (by omega)) hlen
            simp only [ht', hr', hv]
    · intro B B' off acc fs o2 h hag hlen
      rw [readCompoundF.eq_2] at h
      rw [readCompoundF.eq_2]
      cases hu : readUByte B off with
      | error e => simp only [hu] at h; exact absurd h (by simp)
      | ok p =>
        obtain ⟨t, o1⟩ := p
        obtain ⟨hu1, hu2⟩ := readUByte_bounds hu
        simp only [hu] at h
        by_cases ht0 : t = 0
        · rw [if_pos ht0] at h
          simp only [Except.ok.injEq, Prod.mk.injEq] at h
          obtain ⟨hv, ho⟩ := h
          subst ho
          have hu' := readUByte_agree hu hag
          simp only [hu', if_pos ht0, hv]
        · rw [if_neg ht0] at h
          cases hstr : readString B o1 with
          | error e => simp only [hstr] at h; exact absurd h (by simp)
          | ok q =>
            obtain ⟨k, o2'⟩ := q
            simp only [hstr] at h
            cases htag : readTagF fuel t B o2' with
            | error e => simp only [htag] at h; exact absurd h (by simp)
            | ok w =>
              obtain ⟨v, o3⟩ := w
              simp only [htag] at h
              obtain ⟨hs1, hs2⟩ := readString_bounds hstr
              obtain ⟨ht1, ht2⟩ := (read_bounds fuel).1 t B o2' v o3 htag
              obtain ⟨hc1, hc2⟩ := (read_bounds fuel).2.2.2 B o3
                (insertField acc k v) fs o2 h
              have hu' := readUByte_agree hu
                (fun i h1 h2 => hag i (by omega) (by omega))
              have hstr' := readString_agree hstr
                (fun i h1 h2 => hag i (by omega) (by omega)) hlen
              have htag' := ihT t B B' o2' v o3 htag
                (fun i h1 h2 => hag i (by omega) (by omega)) hlen
              have hrec' := ihC B B' o3 (insertField acc k v) fs o2 h
                (fun i h1 h2 => hag i (by omega) (by omega)) hlen
              simp only [hu', if_neg ht0, hstr', htag']
              exact hrec'

/-- A successful parse ends within the buffer. -/
theorem parse_bounds {fuel : Nat} {B : Bytes} {d : Bytes × Fields} {n : Nat}
    (h : parseF fuel B = .ok (d, n)) : n ≤ B.length := by
  unfold parseF at h
  split at h
  · exact absurd h (by simp)
  · rename_i rt o1 hu
    split at h
    · split at h
      · exact absurd h (by simp)
      · rename_i nm o2 hstr
        split at h
        · exact absurd h (by simp)
        · rename_i fs o3 hc
          simp only [Except.ok.injEq, Prod.mk.injEq] at h
          obtain ⟨hc1, hc2⟩ := (read_bounds fuel).2.2.2 B o2 [] fs o3 hc
          omega
    · exact absurd h (by simp)

/-- A successful parse is stable under replacing the bytes at and beyond
its final cursor position, provided the buffer does not shrink. -/
theorem parse_agree {fuel : Nat} {B B' : Bytes} {d : Bytes × Fields} {n : Nat}
    (h : parseF fuel B = .ok (d, n))
    (hag : ∀ i, i < n → B'.get? i = B.get? i)
    (hlen : B.length ≤ B'.length) : parseF fuel B' = .ok (d, n) := by
  unfold parseF at h ⊢
  split at h
  · exact absurd h (by simp)
  · rename_i rt o1 hu
    split at h
    · rename_i hrt
      split at h
      · exact absurd h (by simp)
      · rename_i nm o2 hstr
        split at h
        · exact absurd h (by simp)
        · rename_i fs o3 hc
          simp only [Except.ok.injEq, Prod.mk.injEq] at h
          obtain ⟨hd, hn⟩ := h
          subst hn
          obtain ⟨hu1, hu2⟩ := readUByte_bounds hu
          obtain ⟨hs1, hs2⟩ := readString_bounds hstr
          obtain ⟨hc1, hc2⟩ := (read_bounds fuel).2.2.2 B o2 [] fs o3 hc
          have hu' := readUByte_agree hu
            (fun i h1 h2 => hag i (by omega))
          have hstr' := readString_agree hstr
            (fun i h1 h2 => hag i (by omega)) hlen
          have hc' := (read_agree fuel).2.2.2 B B' o2 [] fs o3 hc
            (fun i h1 h2 => hag i (by omega)) hlen
          simp only [hu', if_pos hrt, hstr', hc']
          rw [hd]
    · exact absurd h (by simp)

/-- A successful parse is stable under additional fuel. -/
theorem parse_mono {f g : Nat} {B : Bytes} {r : (Bytes × Fields) × Nat}
    (hfg : f ≤ g) (h : parseF f B = .ok r) : parseF g B = .ok r := by
  unfold parseF at h ⊢
  split at h
  · exact absurd h (by simp)
  · rename_i rt o1 hu
    split at h
    · rename_i hrt
      split at h
      · exact absurd h (by simp)
      · rename_i nm o2 hstr
        split at h
        · exact absurd h (by simp)
        · rename_i fs o3 hc
          have hc' := (fuel_mono_le hfg).2 B o2 [] (fs, o3) hc
          simp only [hu, if_pos hrt, hstr, hc']
          exact h
    · exact absurd h (by simp)

/-! ### Claim theorems -/

/-- Modelled from the spec's words, for comparison with the source's
`readString` (claim C4): a string read whose 16-bit length prefix is
treated as UNSIGNED and which always consumes that many payload bytes. -/
def readStringSpecU (b : Bytes) (off : Nat) : Except NErr (Bytes × Nat) :=
  match readBE 2 b off with
  | .error e => .error e
  | .ok (len, o1) =>
    if o1 + len ≤ b.length then .ok ((b.drop o1).take len, o1 + len)
    else .error .oob

/-- C4 counterexample: on the two length-prefix bytes `0x80 0x00`
(length field 32768) followed by one payload byte, the source's
`readString` succeeds with the empty string after consuming only the two
prefix bytes, where a reader with an unsigned 16-bit length prefix that
consumes `length` payload bytes would run out of bytes. -/
theorem c4_counterexample :
    readString [128, 0, 65] 0 = .ok ([], 2) ∧
    readStringSpecU [128, 0, 65] 0 = .error .oob ∧
    beNat [128, 0] = 32768 := by
  refine ⟨by decide, by decide, by decide⟩

/-- C4 (amended): the decoder reads the 16-bit length prefix as a SIGNED
value (`readShort`); a length field up to 32767 consumes exactly that
many payload bytes and returns them decoded, while a length field of
32768..65535 is read as negative and yields the empty string without
consuming any payload byte. -/
theorem c4_string_length (len : Nat) (B : Bytes) (off : Nat)
    (rest : List Nat) (hlen : len ≤ 65535)
    (h : B.drop off = encBE 2 len ++ rest) :
    (len ≤ 32767 → len ≤ rest.length →
      readString B off = .ok (rest.take len, off + 2 + len))
    ∧ (32768 ≤ len → readString B off = .ok ([], off + 2)) := by
  constructor
  · intro h1 h2
    have hstr : B.drop off = encStr (rest.take len) ++ rest.drop len := by
      unfold encStr
      rw [List.length_take]
      rw [show min len rest.length = len by omega]
      rw [List.append_assoc, List.take_append_drop]
      exact h
    have := readString_enc (s := rest.take len)
      (by rw [List.length_take]; omega) hstr
    rwa [List.length_take, show min len rest.length = len by omega] at this
  · intro h1
    have hbe := readBE_enc (show len < 256 ^ 2 by norm_num; omega) h
    unfold readString readShort
    rw [hbe]
    have hneg : toSigned 16 len ≤ 0 := by
      unfold toSigned
      rw [if_neg (by norm_num; omega)]
      norm_num
      omega
    simp only [if_pos hneg]

/-- C4 witness. -/
theorem c4_string_length_witness :
    (2 ≤ 65535 ∧ [0, 2, 65, 66, 99].drop 0 = encBE 2 2 ++ [65, 66, 99]) ∧
    ((2 ≤ 32767 → 2 ≤ [65, 66, 99].length →
      readString [0, 2, 65, 66, 99] 0 = .ok ([65, 66, 99].take 2, 0 + 2 + 2))
    ∧ (32768 ≤ 2 → readString [0, 2, 65, 66, 99] 0 = .ok ([], 0 + 2))) :=
  ⟨⟨by decide, by decide⟩,
    c4_string_length 2 [0, 2, 65, 66, 99] 0 [65, 66, 99] (by decide) (by decide)⟩

/-- Round trip between a byte list and its big-endian value. -/
theorem encBE_beNat : ∀ bs : List Nat, (∀ b ∈ bs, b < 256) →
    encBE bs.length (beNat bs) = bs ∧ beNat bs < 256 ^ bs.length := by
  intro bs
  induction bs with
  | nil => intro _; exact ⟨rfl, by simp [beNat]⟩
  | cons b bs ih =>
    intro hb
    obtain ⟨ih1, ih2⟩ := ih (fun x hx => hb x (by simp [hx]))
    have hblt : b < 256 := hb b (by simp)
    have hP : 0 < 256 ^ bs.length := by positivity
    constructor
    · simp only [List.length_cons, encBE, beNat]
      have hdiv : (b * 256 ^ bs.length + beNat bs) / 256 ^ bs.length = b := by
        rw [Nat.add_comm, Nat.add_mul_div_right _ _ hP,
          Nat.div_eq_of_lt ih2]
        omega
      have hmod : (b * 256 ^ bs.length + beNat bs) % 256 ^ bs.length
          = beNat bs := by
        rw [Nat.add_comm, Nat.add_mul_mod_self_right, Nat.mod_eq_of_lt ih2]
      rw [hdiv, hmod, ih1]
    · simp only [List.length_cons, beNat, pow_succ]
      calc b * 256 ^ bs.length + beNat bs
          < b * 256 ^ bs.length + 256 ^ bs.length := by omega
        _ = (b + 1) * 256 ^ bs.length := by ring
        _ ≤ 256 * 256 ^ bs.length := by
            exact Nat.mul_le_mul_right _ (by omega)
        _ = 256 ^ bs.length * 256 := by ring

/-- C8: decoding a 64-bit integer tag from any 8 bytes returns exactly
their signed two's-complement big-endian value — full 64-bit precision,
the sign-carrying upper bits exact. -/
theorem c8_long_exact (bs : List Nat) (h8 : bs.length = 8)
    (hb : ∀ b ∈ bs, b < 256) :
    readLong bs 0 = .ok (toSigned 64 (beNat bs), 8) ∧
    toSigned 64 (beNat bs) =
      (if beNat bs < 2 ^ 63 then (beNat bs : Int)
        else (beNat bs : Int) - 2 ^ 64) := by
  obtain ⟨henc, hlt⟩ := encBE_beNat bs hb
  rw [h8] at henc hlt
  constructor
  · have hdrop : bs.drop 0 = encBE 8 (beNat bs) ++ [] := by simp [henc]
    exact readLong_bytes (by norm_num at hlt ⊢; omega) hdrop
  · rfl

/-- C8 witness. -/
theorem c8_long_exact_witness :
    ([255, 255, 255, 255, 255, 255, 255, 254].length = 8
      ∧ ∀ b ∈ [255, 255, 255, 255, 255, 255, 255, 254], b < 256) ∧
    (readLong [255, 255, 255, 255, 255, 255, 255, 254] 0
        = .ok (toSigned 64 (beNat [255, 255, 255, 255, 255, 255, 255, 254]), 8) ∧
      toSigned 64 (beNat [255, 255, 255, 255, 255, 255, 255, 254]) =
        (if beNat [255, 255, 255, 255, 255, 255, 255, 254] < 2 ^ 63 then
          (beNat [255, 255, 255, 255, 255, 255, 255, 254] : Int)
        else (beNat [255, 255, 255, 255, 255, 255, 255, 254] : Int) - 2 ^ 64)) :=
  ⟨⟨by decide, by decide⟩,
    c8_long_exact [255, 255, 255, 255, 255, 255, 255, 254] (by decide) (by decide)⟩

/-- Hex rendering of a value below `16^(k+1)` takes at most `k+1`
digits. -/
theorem natToHexCore_len : ∀ fuel n k, n < 16 ^ (k + 1) →
    (natToHexCore fuel n).length ≤ k + 1 := by
  intro fuel
  induction fuel with
  | zero => intro n k _; simp [natToHexCore]
  | succ fuel ih =>
    intro n k hn
    simp only [natToHexCore]
    split
    · simp
    · rename_i hge
      match k with
      | 0 => norm_num at hn; omega
      | k + 1 =>
        have hdiv : n / 16 < 16 ^ (k + 1) := by
          rw [pow_succ, Nat.mul_comm] at hn
          exact Nat.div_lt_of_lt_mul hn
        have := ih (n / 16) k hdiv
        simp only [List.length_append, List.length_cons, List.length_nil]
        omega

/-- Every unsigned 32-bit value renders as at most 8 hex digits. -/
theorem natToHex_len32 (u : Nat) (hu : u < 4294967296) :
    (natToHex u).length ≤ 8 := by
  unfold natToHex
  exact natToHexCore_len (u + 1) u 7 (by norm_num; omega)

/-- Zero padding makes exactly 8 digits. -/
theorem pad8_len {s : List Nat} (h : s.length ≤ 8) : (pad8 s).length = 8 := by
  simp [pad8]
  omega

/-- The four signed 32-bit UUID test values from the spec. -/
def uuidVals : List Int := [-737154161, 1675314149, -1429125736, -1059509461]

/-- The canonical hyphenated string the four test values normalize to,
as ASCII bytes. -/
def uuidExpected : List Nat := sb "d40feb8f-63db-43e5-aad1-4598c0d92b2b"

/-- C1: `intArrayToUUID` reduces each of the four signed 32-bit array
elements to its unsigned 32-bit representation, renders each as 8-digit
lowercase hex (zero padded), concatenates the four in order and re-slices
the 32 digits into the 8-4-4-4-12 hyphenated grouping; the four test
values normalize to the same canonical string through `parseProfile`
whether the id is a plain ordered array or a compound keyed "0".."3", and
that string is the hex expansion of the unsigned-reduced values. -/
theorem c1_uuid_normalization (a b c d : Int)
    (ha1 : -2147483648 ≤ a) (ha2 : a < 2147483648)
    (hb1 : -2147483648 ≤ b) (hb2 : b < 2147483648)
    (hc1 : -2147483648 ≤ c) (hc2 : c < 2147483648)
    (hd1 : -2147483648 ≤ d) (hd2 : d < 2147483648) :
    (let digits := (pad8 (natToHex ((a % 4294967296).toNat))
        ++ pad8 (natToHex ((b % 4294967296).toNat))
        ++ pad8 (natToHex ((c % 4294967296).toNat))
        ++ pad8 (natToHex ((d % 4294967296).toNat)));
      intArrayToUUID (.arr [.num a, .num b, .num c, .num d])
        = some (digits.take 8 ++ 45 :: ((digits.drop 8).take 4
            ++ 45 :: ((digits.drop 12).take 4 ++ 45 :: ((digits.drop 16).take 4
            ++ 45 :: (digits.drop 20).take 12)))))
    ∧ (∀ x : Int, (pad8 (natToHex ((x % 4294967296).toNat))).length = 8)
    ∧ intArrayToUUID (.arr (uuidVals.map .num)) = some uuidExpected
    ∧ parseProfile (.obj [(sb "Id", .arr (uuidVals.map .num))]) none
        = .ok (some ⟨none, none, some (.str uuidExpected), none, none⟩)
    ∧ parseProfile (.obj [(sb "Id",
        .obj [(sb "0", .num (-737154161)), (sb "1", .num 1675314149),
          (sb "2", .num (-1429125736)), (sb "3", .num (-1059509461))])]) none
        = .ok (some ⟨none, none, some (.str uuidExpected), none, none⟩) := by
  refine ⟨?_, ?_, by decide, rfl, rfl⟩
  · simp [intArrayToUUID, toU32, hyphenate]
  · intro x
    refine pad8_len (natToHex_len32 _ ?_)
    omega

/-- C1 witness. -/
theorem c1_uuid_normalization_witness :
    ((-2147483648 ≤ (-737154161 : Int) ∧ (-737154161 : Int) < 2147483648)
      ∧ (-2147483648 ≤ (1675314149 : Int) ∧ (1675314149 : Int) < 2147483648)
      ∧ (-2147483648 ≤ (-1429125736 : Int) ∧ (-1429125736 : Int) < 2147483648)
      ∧ (-2147483648 ≤ (-1059509461 : Int) ∧ (-1059509461 : Int) < 2147483648))
    ∧ intArrayToUUID (.arr (uuidVals.map .num)) = some uuidExpected
    ∧ parseProfile (.obj [(sb "Id", .arr (uuidVals.map .num))]) none
        = .ok (some ⟨none, none, some (.str uuidExpected), none, none⟩) :=
  ⟨⟨⟨by decide, by decide⟩, ⟨by decide, by decide⟩, ⟨by decide, by decide⟩,
    ⟨by decide, by decide⟩⟩,
    (c1_uuid_normalization (-737154161) 1675314149 (-1429125736) (-1059509461)
      (by decide) (by decide) (by decide) (by decide)
      (by decide) (by decide) (by decide) (by decide)).2.2.1,
    (c1_uuid_normalization (-737154161) 1675314149 (-1429125736) (-1059509461)
      (by decide) (by decide) (by decide) (by decide)
      (by decide) (by decide) (by decide) (by decide)).2.2.2.1⟩

/-- The four-byte document `0a 00 00 00` (an empty root compound with an
empty root name) parses successfully, consuming all four bytes. -/
theorem parse_empty_root :
    parseF 1 ([10, 0, 0, 0] : Bytes) = .ok ((([] : Bytes), ([] : Fields)), 4) := by
  have henc : encodeRoot [] .fnil = ([10, 0, 0, 0] : Bytes) := by
    simp [encodeRoot, encStr, encS, encBE, encPayload, encFields]
  have h := @parse_enc ([] : List Nat) TagFields.fnil 1
    (by decide) (by simp [rtFields]) (by simp [fkeys]) (by simp [fieldsFuel])
  rw [henc] at h
  simpa [jsFieldsPlain, jsOfFieldsAcc] using h

/-- C2 counterexample: the buffer `0a 00 00 00 63` decodes successfully
(to an empty root compound, with the final byte left unconsumed), yet its
strict prefix of length 4 also decodes successfully rather than yielding
a format error: `parse` never checks that the whole buffer was consumed,
so a buffer that decodes successfully can have a strict prefix that also
decodes successfully. -/
theorem c2_counterexample :
    parseF 1 ([10, 0, 0, 0, 99] : Bytes)
        = .ok ((([] : Bytes), ([] : Fields)), 4)
    ∧ 4 < ([10, 0, 0, 0, 99] : Bytes).length
    ∧ parseF 1 (([10, 0, 0, 0, 99] : Bytes).take 4)
        = .ok ((([] : Bytes), ([] : Fields)), 4) := by
  have h4 := parse_empty_root
  refine ⟨?_, by decide, ?_⟩
  · exact parse_agree h4 (by intro i hi; interval_cases i <;> rfl) (by decide)
  · rw [show ([10, 0, 0, 0, 99] : Bytes).take 4 = [10, 0, 0, 0] from rfl]
    exact h4

/-- C2 (amended with a full-consumption hypothesis): if a buffer decodes
successfully AND the decode consumes the whole buffer, then decoding any
strict prefix of it fails with a format error, at every fuel: it never
returns a successful parse. -/
theorem c2_truncation {fuel : Nat} {B : Bytes} {d : Bytes × Fields}
    (h : parseF fuel B = .ok (d, B.length)) (m : Nat) (hm : m < B.length)
    (fuel' : Nat) : ∃ e, parseF fuel' (B.take m) = Except.error e := by
  cases hres : parseF fuel' (B.take m) with
  | error e => exact ⟨e, rfl⟩
  | ok r =>
    exfalso
    obtain ⟨d', n'⟩ := r
    have hb := parse_bounds hres
    have htl : (B.take m).length = m := by simp; omega
    rw [htl] at hb
    have hag : ∀ i, i < n' → B.get? i = (B.take m).get? i := by
      intro i hi
      rw [List.get?_eq_getElem?, List.get?_eq_getElem?,
        List.getElem?_take_of_lt (by omega)]
    have hfull := parse_agree hres hag (by rw [htl]; omega)
    have h1 := parse_mono (Nat.le_max_left fuel fuel') h
    have h2 := parse_mono (Nat.le_max_right fuel fuel') hfull
    rw [h1] at h2
    simp only [Except.ok.injEq, Prod.mk.injEq] at h2
    omega

/-- C2 witness. -/
theorem c2_truncation_witness :
    parseF 1 ([10, 0, 0, 0] : Bytes)
        = .ok ((([] : Bytes), ([] : Fields)), ([10, 0, 0, 0] : Bytes).length)
    ∧ ∃ e, parseF 1 (([10, 0, 0, 0] : Bytes).take 3) = Except.error e :=
  ⟨parse_empty_root, c2_truncation parse_empty_root 3 (by decide) 1⟩

/-- The decoded field images keep the compound's key order. -/
theorem jsFieldsPlain_keys :
    ∀ fs : TagFields, (jsFieldsPlain fs).map Prod.fst = fkeys fs
  | .fnil => rfl
  | .fcons k v tl => by
    simp [jsFieldsPlain, fkeys, jsFieldsPlain_keys tl]

/-- The decoded list image keeps the element count. -/
theorem jsOfTags_length : ∀ xs : Tags, (jsOfTags xs).length = lenTags xs
  | .nil => rfl
  | .cons t tl => by
    simp [jsOfTags, lenTags, jsOfTags_length tl]
    omega

/-- The 32768-byte string payload of the C3 counterexample. -/
def longStr : List Nat := List.replicate 32768 0

/-- A format-well-formed tree whose single field holds a string of length
32768 — admitted by the format's 16-bit length prefix, past the decoder's
signed length read. -/
def c3cexFields : TagFields := .fcons [107] (.str longStr) .fnil

/-- C3 counterexample: a format-well-formed tree with a string of length
32768 does not round-trip.  Its encoding decodes SUCCESSFULLY — the
signed 16-bit length read turns the written prefix 0x8000 into -32768,
yields the empty string without consuming the payload, and the first
payload byte then reads as an end marker — but to a different tree: the
field holds the empty string instead of the 32768-byte one, and 32768
trailing bytes are never consumed. -/
theorem c3_counterexample :
    wfFields c3cexFields = true
    ∧ smallFields c3cexFields = false
    ∧ jsFieldsPlain c3cexFields = [([107], JSVal.str longStr)]
    ∧ (∀ fuel, 2 ≤ fuel →
        parseF fuel (encodeRoot [] c3cexFields)
          = .ok (([], [([107], JSVal.str [])]), 10))
    ∧ 10 < (encodeRoot [] c3cexFields).length
    ∧ JSVal.str [] ≠ JSVal.str longStr := by
  have hlen : longStr.length = 32768 := List.length_replicate 32768 0
  have henc : encodeRoot [] c3cexFields
      = [10, 0, 0, 8, 0, 1, 107, 128, 0] ++ (longStr ++ [0]) := by
    norm_num [encodeRoot, encStr, encBE, encPayload, encFields,
      c3cexFields, tagType, hlen]
  have hu0 : readUByte [10, 0, 0, 8, 0, 1, 107, 128, 0, 0] 0
      = .ok (10, 1) := by decide
  have hs1 : readString [10, 0, 0, 8, 0, 1, 107, 128, 0, 0] 1
      = .ok ([], 3) := by decide
  have hu3 : readUByte [10, 0, 0, 8, 0, 1, 107, 128, 0, 0] 3
      = .ok (8, 4) := by decide
  have hs4 : readString [10, 0, 0, 8, 0, 1, 107, 128, 0, 0] 4
      = .ok ([107], 7) := by decide
  have hs7 : readString [10, 0, 0, 8, 0, 1, 107, 128, 0, 0] 7
      = .ok ([], 9) := by decide
  have hu9 : readUByte [10, 0, 0, 8, 0, 1, 107, 128, 0, 0] 9
      = .ok (0, 10) := by decide
  have hc1 : readCompoundF 2 [10, 0, 0, 8, 0, 1, 107, 128, 0, 0] 3 []
      = .ok ([([107], JSVal.str [])], 10) := by
    simp only [readCompoundF, readTagF, hu3, hs4, hs7, hu9, insertField]
    norm_num
  have h10 : parseF 2 [10, 0, 0, 8, 0, 1, 107, 128, 0, 0]
      = .ok (([], [([107], JSVal.str [])]), 10) := by
    simp only [parseF, hu0, hs1, hc1]
    norm_num
  have hfull : parseF 2 (encodeRoot [] c3cexFields)
      = .ok (([], [([107], JSVal.str [])]), 10) := by
    refine parse_agree h10 ?_ ?_
    · intro i hi
      rw [henc]
      interval_cases i <;> rfl
    · rw [henc, List.length_append, List.length_append, hlen]
      norm_num
  refine ⟨?_, ?_, by simp only [c3cexFields, jsFieldsPlain, jsOfTag],
    ?_, ?_, ?_⟩
  · have hall : ∀ x ∈ longStr, x < 256 := fun x hx => by
      rw [List.eq_of_mem_replicate hx]
      norm_num
    simp [c3cexFields, wfFields, wfTag, hlen, List.all_eq_true]
    exact hall
  · simp [c3cexFields, smallFields, smallTag, hlen]
  · intro fuel hf
    exact parse_mono hf hfull
  · rw [henc, List.length_append, List.length_append, hlen]
    norm_num
  · intro h
    have h' := JSVal.str.inj h
    have h0 : (0 : Nat) = 32768 := by
      calc (0 : Nat) = ([] : List Nat).length := rfl
        _ = longStr.length := by rw [h']
        _ = 32768 := hlen
    exact absurd h0 (by decide)

/-- C3 (amended with a string-length restriction): for every
format-well-formed tag tree with distinct compound keys whose strings and
keys are all SHORTER THAN 32768, encoding it with the reference encoder
and decoding with this decoder reproduces the tree exactly: the root
name, the ordered field images (compound key order and values preserved),
list element order and counts, consuming the whole buffer.  The
restriction is necessary: the format admits string lengths up to 65535,
but for 32768..65535 the decoder's signed length read breaks the round
trip (`c3_counterexample`). -/
theorem c3_round_trip (nm : List Nat) (fs : TagFields) (fuel : Nat)
    (hnm : nm.length < 32768) (hwf : wfFields fs = true)
    (hsm : smallFields fs = true)
    (hnd : (fkeys fs).Nodup) (hfl : fieldsFuel fs ≤ fuel) :
    parseF fuel (encodeRoot nm fs)
        = .ok ((nm, jsFieldsPlain fs), (encodeRoot nm fs).length)
    ∧ (jsFieldsPlain fs).map Prod.fst = fkeys fs
    ∧ ∀ et xs, jsOfTag (.list et xs) = .arr (jsOfTags xs)
        ∧ (jsOfTags xs).length = lenTags xs :=
  ⟨parse_enc hnm (rt_of_wf_small_fields fs hwf hsm) hnd hfl,
    jsFieldsPlain_keys fs, fun _ xs => ⟨rfl, jsOfTags_length xs⟩⟩

/-- A hand-built tree covering every tag variant, including a compound
nested inside a list nested inside the root compound. -/
def c3tree : TagFields :=
  .fcons (sb "a") (.byte (-1))
  (.fcons (sb "b") (.short 2)
  (.fcons (sb "c") (.int (-3))
  (.fcons (sb "d") (.long (-5000000000))
  (.fcons (sb "e") (.float 1078530011)
  (.fcons (sb "f") (.double 4614256656552045848)
  (.fcons (sb "g") (.byteArr [-1, 0, 127])
  (.fcons (sb "h") (.str (sb "hi"))
  (.fcons (sb "i") (.list 10
      (.cons (.compound (.fcons (sb "x") (.int 7) .fnil)) .nil))
  (.fcons (sb "j") (.compound (.fcons (sb "y") (.str (sb "z")) .fnil))
  (.fcons (sb "k") (.intArr [-737154161, 1675314149])
  (.fcons (sb "l") (.longArr [-1, 2]) .fnil)))))))))))

/-- C3 witness. -/
theorem c3_round_trip_witness :
    ((sb "root").length < 32768 ∧ wfFields c3tree = true
      ∧ smallFields c3tree = true
      ∧ (fkeys c3tree).Nodup ∧ fieldsFuel c3tree ≤ 100)
    ∧ parseF 100 (encodeRoot (sb "root") c3tree)
        = .ok ((sb "root", jsFieldsPlain c3tree),
            (encodeRoot (sb "root") c3tree).length) :=
  ⟨⟨by decide, by decide, by decide, by decide, by decide⟩,
    (c3_round_trip (sb "root") c3tree 100 (by decide) (by decide)
      (by decide) (by decide) (by decide)).1⟩

/-- C7: decoding a compound that contains the same key twice with
different values succeeds (duplicate keys are not an error) and yields a
single entry for that key bound to the later value (last-write-wins). -/
theorem c7_duplicate_keys (k : List Nat) (v1 v2 : Tag) (nm : List Nat)
    (fuel : Nat) (hnm : nm.length < 32768) (hk1 : k.length < 32768)
    (hk2 : k.all (· < 256) = true)
    (hw1 : wfTag v1 = true) (hw2 : wfTag v2 = true)
    (hs1 : smallTag v1 = true) (hs2 : smallTag v2 = true)
    (hfl : fieldsFuel (.fcons k v1 (.fcons k v2 .fnil)) ≤ fuel) :
    parseF fuel (encodeRoot nm (.fcons k v1 (.fcons k v2 .fnil)))
      = .ok ((nm, [(k, jsOfTag v2)]),
          (encodeRoot nm (.fcons k v1 (.fcons k v2 .fnil))).length) := by
  have hwf : rtFields (.fcons k v1 (.fcons k v2 .fnil)) = true := by
    simp [rtFields, hk2, rt_of_wf_small v1 hw1 hs1, rt_of_wf_small v2 hw2 hs2]
    omega
  have h := parse_encAcc hnm hwf hfl
  simpa [jsOfFieldsAcc, insertField] using h

/-- C7 witness. -/
theorem c7_duplicate_keys_witness :
    (([] : List Nat).length < 32768 ∧ (sb "k").length < 32768
      ∧ (sb "k").all (fun x => x < 256) = true
      ∧ wfTag (.byte 1) = true ∧ wfTag (.byte 2) = true
      ∧ smallTag (.byte 1) = true ∧ smallTag (.byte 2) = true
      ∧ fieldsFuel (.fcons (sb "k") (.byte 1)
          (.fcons (sb "k") (.byte 2) .fnil)) ≤ 10)
    ∧ parseF 10 (encodeRoot []
          (.fcons (sb "k") (.byte 1) (.fcons (sb "k") (.byte 2) .fnil)))
        = .ok (([], [(sb "k", JSVal.num 2)]),
            (encodeRoot []
              (.fcons (sb "k") (.byte 1)
                (.fcons (sb "k") (.byte 2) .fnil))).length) :=
  ⟨⟨by decide, by decide, by decide, by decide, by decide, by decide,
    by decide, by decide⟩,
    c7_duplicate_keys (sb "k") (.byte 1) (.byte 2) [] 10 (by decide)
      (by decide) (by decide) (by decide) (by decide) (by decide)
      (by decide) (by decide)⟩

/-- `findTextures` succeeds on its error-free domain. -/
theorem findTextures_ok :
    ∀ ps, findTexturesOk ps = true → ∃ o, findTextures ps = .ok o
  | [], _ => ⟨_, rfl⟩
  | p :: rest, h => by
    by_cases hc : (getProp p (sb "name") == some (.str (sb "textures"))
        || getProp p (sb "Name") == some (.str (sb "textures"))) = true
    · cases p <;> simp_all [findTextures, findTexturesOk]
    · cases p <;> simp_all [findTextures, findTexturesOk] <;>
        exact findTextures_ok rest h

/-- `texTail` succeeds on its error-free domain. -/
theorem texTail_ok (p : JSVal) (h : texTailOk p = true) :
    ∃ r, texTail p = .ok r := by
  cases htx : jsOr (getProp p (sb "textures"))
      (jsOr (getProp p (sb "Textures")) (some (.arr []))) with
  | none => simp [texTail, htx]
  | some v =>
    simp only [texTail, texTailOk, htx] at h ⊢
    cases v <;> try exact ⟨_, rfl⟩
    case arr xs =>
      cases xs with
      | nil => exact ⟨_, rfl⟩
      | cons t tl => cases t <;> simp_all

/-- `texturePair` succeeds on its error-free domain. -/
theorem texturePair_ok (p : JSVal) (h : texturePairOk p = true) :
    ∃ r, texturePair p = .ok r := by
  cases p
  case arr ps =>
    simp only [texturePairOk] at h
    obtain ⟨o, ho⟩ := findTextures_ok ps h
    cases o with
    | none => exact ⟨(none, none), by simp [texturePair, ho]⟩
    | some tp =>
      exact ⟨(jsOr (getProp tp (sb "Value")) (getProp tp (sb "value")),
        jsOr (getProp tp (sb "Signature")) (getProp tp (sb "signature"))),
        by simp [texturePair, ho]⟩
  all_goals
    simp only [texturePairOk] at h
  all_goals
    simp only [texturePair]
  all_goals
    exact texTail_ok _ h

/-- Both branches of the final emit decision succeed. -/
theorem exists_ok_ite {c : Prop} [Decidable c] {x y : Option SkinProfile} :
    ∃ r, (if c then (.ok x : Except JsErr (Option SkinProfile)) else .ok y)
      = .ok r := by
  by_cases hc : c <;> simp [hc]

/-- `parseProfileObj` succeeds on its error-free domain. -/
theorem parseProfileObj_ok (p : JSVal) (cn : Option JSVal)
    (h : parseProfileObjOk p = true) : ∃ r, parseProfileObj p cn = .ok r := by
  cases hpp : jsOr (getProp p (sb "Properties"))
      (getProp p (sb "properties")) with
  | none =>
    simp only [parseProfileObj, hpp]
    exact exists_ok_ite
  | some pv =>
    simp only [parseProfileObjOk, hpp] at h
    simp only [parseProfileObj, hpp]
    by_cases ht : jsTruthy pv = true
    · rw [if_pos ht] at h ⊢
      obtain ⟨⟨tv, ts⟩, htp⟩ := texturePair_ok pv h
      rw [htp]
      exact exists_ok_ite
    · rw [if_neg ht]
      exact exists_ok_ite

/-- `parseProfile` succeeds on its error-free domain. -/
theorem parseProfile_ok (p : JSVal) (cn : Option JSVal)
    (h : parseProfileOk p = true) : ∃ r, parseProfile p cn = .ok r := by
  cases p
  case str s => exact ⟨_, rfl⟩
  all_goals
    simp only [parseProfileOk] at h
  all_goals
    simp only [parseProfile]
  all_goals
    exact parseProfileObj_ok _ cn h

/-- `entityBody` succeeds on its error-free domain. -/
theorem entityBody_ok (e : JSVal) (h : entityBodyOk e = true) :
    ∃ r, entityBody e = .ok r := by
  cases hpf : jsOr (getProp e (sb "profile"))
      (jsOr (getProp e (sb "SkullOwner")) (getProp e (sb "Owner"))) with
  | none => simp [entityBody, hpf]
  | some p =>
    simp only [entityBodyOk, hpf] at h
    simp only [entityBody, hpf]
    by_cases ht : jsTruthy p = true
    · rw [if_pos ht] at h ⊢
      exact parseProfile_ok p _ h
    · rw [if_neg ht]
      exact ⟨_, rfl⟩

/-- `extractSkinFromEntity` succeeds on its error-free domain. -/
theorem extractSkinFromEntity_ok (e : JSVal) (h : entityOk e = true) :
    ∃ r, extractSkinFromEntity e = .ok r := by
  cases e
  case vnull => simp [entityOk] at h
  all_goals
    simp only [entityOk] at h
  all_goals
    simp only [extractSkinFromEntity]
  all_goals
    exact entityBody_ok _ h

/-- The entity loop succeeds when every entity is error-free. -/
theorem extractEntities_ok :
    ∀ (es : List JSVal) (skins : List SkinProfile) (seen : List JSVal),
      es.all entityOk = true → ∃ r, extractEntities es skins seen = .ok r
  | [], skins, seen, _ => ⟨_, rfl⟩
  | e :: rest, skins, seen, h => by
    simp only [List.all_cons, Bool.and_eq_true] at h
    obtain ⟨o, ho⟩ := extractSkinFromEntity_ok e h.1
    cases o with
    | none =>
      simp only [extractEntities, ho]
      exact extractEntities_ok rest skins seen h.2
    | some sd =>
      cases hk : skinKey sd with
      | none =>
        simp only [extractEntities, ho, hk]
        exact extractEntities_ok rest skins seen h.2
      | some k =>
        by_cases hc : (jsTruthy k && !(seen.any fun s => jeq s k)) = true
        · simp only [extractEntities, ho, hk, hc, if_true]
          exact extractEntities_ok rest (skins ++ [sd]) (seen ++ [k]) h.2
        · rw [Bool.not_eq_true] at hc
          simp only [extractEntities, ho, hk, hc, if_false]
          exact extractEntities_ok rest skins seen h.2

/-- `regionStepBody` succeeds on its error-free domain. -/
theorem regionStepBody_ok (r : JSVal) (skins : List SkinProfile)
    (seen : List JSVal) (h : regionBodyOk r = true) :
    ∃ st, regionStepBody r skins seen = .ok st := by
  cases hbe : regionBE r with
  | none => simp [regionStepBody, hbe]
  | some bev =>
    cases hie : iterElems bev with
    | error e => simp [regionBodyOk, hbe, hie] at h
    | ok es =>
      simp only [regionBodyOk, hbe, hie] at h
      simp only [regionStepBody, hbe, hie]
      exact extractEntities_ok es skins seen h

/-- `regionStep` succeeds on its error-free domain. -/
theorem regionStep_ok (r : JSVal) (skins : List SkinProfile)
    (seen : List JSVal) (h : regionOk r = true) :
    ∃ st, regionStep r skins seen = .ok st := by
  cases r
  case vnull => simp [regionOk] at h
  all_goals
    simp only [regionOk] at h
  all_goals
    simp only [regionStep]
  all_goals
    exact regionStepBody_ok _ skins seen h

/-- The region loop succeeds when every region is error-free. -/
theorem extractRegions_ok :
    ∀ (rs : List JSVal) (skins : List SkinProfile) (seen : List JSVal),
      rs.all regionOk = true → ∃ l, extractRegions rs skins seen = .ok l
  | [], skins, _, _ => ⟨skins, rfl⟩
  | r :: rest, skins, seen, h => by
    simp only [List.all_cons, Bool.and_eq_true] at h
    obtain ⟨⟨skins', seen'⟩, hst⟩ := regionStep_ok r skins seen h.1
    simp only [extractRegions, hst]
    exact extractRegions_ok rest skins' seen' h.2

/-- C5 counterexample: a root compound whose region carries
`BlockEntities` bound to the number `5` — a structurally mistyped field —
makes the extraction pass throw a `TypeError` (`for...of` over a
non-iterable) instead of treating the field as absent. -/
theorem c5_counterexample :
    extractSkinsFromNBT ([], [(sb "Regions", .obj [(sb "r",
        .obj [(sb "BlockEntities", .num 5)])])])
      = .error .typeErr := by decide

/-- C5 (amended with an error-free-domain hypothesis): the extraction
pass returns an ordered result sequence on every input whose reachable
region values are non-null, whose truthy block-entity lists are iterable,
and whose entities reach no null property access — but not on every root
compound: outside this domain it throws a `TypeError`
(`c5_counterexample`). -/
theorem c5_extract_total (t : Bytes × Fields) (h : extractOk t = true) :
    ∃ l, extractSkinsFromNBT t = .ok l := by
  cases hrg : jsOr (getProp (JSVal.obj t.2) (sb "Regions"))
      (jsOr (getProp (JSVal.obj t.2) (sb "regions")) (some (.obj []))) with
  | none => exact ⟨[], by simp [extractSkinsFromNBT, hrg]⟩
  | some rg =>
    simp only [extractOk, hrg] at h
    have hr := extractRegions_ok (forInVals rg) [] [] h
    simpa [extractSkinsFromNBT, hrg] using hr

/-- C5 witness. -/
theorem c5_extract_total_witness :
    extractOk ([], [(sb "Regions", .obj [(sb "r",
        .obj [(sb "BlockEntities",
          .arr [.obj [(sb "SkullOwner", .str (sb "Bob"))]])])])]) = true
    ∧ ∃ l, extractSkinsFromNBT ([], [(sb "Regions", .obj [(sb "r",
        .obj [(sb "BlockEntities",
          .arr [.obj [(sb "SkullOwner", .str (sb "Bob"))]])])])]) = .ok l :=
  ⟨by decide, c5_extract_total _ (by decide)⟩

/-- The seen-set test is membership: decoded-value equality coincides
with Lean equality. -/
theorem any_jeq {seen : List JSVal} {k : JSVal} :
    (seen.any fun s => jeq s k) = true ↔ k ∈ seen := by
  rw [List.any_eq_true]
  constructor
  · rintro ⟨s, hs, hj⟩
    rwa [eq_of_jeq hj] at hs
  · intro hk
    exact ⟨k, hk, jeq_refl k⟩

/-- The accumulator fold is the pair fold with the accumulator
prepended. -/
theorem dedupStep_pairs :
    ∀ (l : List (JSVal × SkinProfile)) (skins : List SkinProfile)
      (seen : List JSVal),
      dedupStep (skins, seen) l
        = (skins ++ (dedupPairs seen l).map Prod.snd,
           seen ++ (dedupPairs seen l).map Prod.fst)
  | [], skins, seen => by simp [dedupStep, dedupPairs]
  | (k, sd) :: rest, skins, seen => by
    simp only [dedupStep, dedupPairs]
    by_cases hc : (jsTruthy k && !(seen.any fun s => jeq s k)) = true
    · simp [hc, dedupStep_pairs rest (skins ++ [sd]) (seen ++ [k])]
    · rw [Bool.not_eq_true] at hc
      simp [hc, dedupStep_pairs rest skins seen]

/-- The fold distributes over stream concatenation. -/
theorem dedupStep_append :
    ∀ (l1 l2 : List (JSVal × SkinProfile)) (st : List SkinProfile × List JSVal),
      dedupStep st (l1 ++ l2) = dedupStep (dedupStep st l1) l2
  | [], _, _ => rfl
  | (k, sd) :: rest, l2, st => by
    simp only [List.cons_append, dedupStep]
    by_cases hc : (jsTruthy k && !(st.2.any fun s => jeq s k)) = true
    · simp only [hc, if_true]
      exact dedupStep_append rest l2 _
    · rw [Bool.not_eq_true] at hc
      simp only [hc, if_false]
      exact dedupStep_append rest l2 st

/-- The entity loop is exactly the fold of the entity stream. -/
theorem extractEntities_stream (es : List JSVal) :
    ∀ (skins : List SkinProfile) (seen : List JSVal),
      extractEntities es skins seen
        = Except.map (dedupStep (skins, seen)) (keyedProfiles es) := by
  induction es with
  | nil =>
    intro skins seen
    rfl
  | cons e rest ih =>
    intro skins seen
    cases he : extractSkinFromEntity e with
    | error er => simp [extractEntities, keyedProfiles, he, Except.map]
    | ok o =>
      cases o with
      | none =>
        simp only [extractEntities, keyedProfiles, he]
        exact ih skins seen
      | some sd =>
        cases hk : skinKey sd with
        | none =>
          simp only [extractEntities, keyedProfiles, he, hk]
          exact ih skins seen
        | some k =>
          simp only [extractEntities, keyedProfiles, he, hk]
          by_cases hc : (jsTruthy k && !(seen.any fun s => jeq s k)) = true
          · rw [if_pos hc, ih]
            cases hkp : keyedProfiles rest with
            | error er => simp [Except.map]
            | ok l => simp [Except.map, dedupStep, hc]
          · rw [if_neg hc, ih]
            rw [Bool.not_eq_true] at hc
            cases hkp : keyedProfiles rest with
            | error er => simp [Except.map]
            | ok l => simp [Except.map, dedupStep, hc]

/-- One region of the loop is the fold of that region's stream. -/
theorem regionStepBody_stream (r : JSVal) (skins : List SkinProfile)
    (seen : List JSVal) :
    regionStepBody r skins seen
      = Except.map (dedupStep (skins, seen)) (regionKeyedBody r) := by
  cases hbe : regionBE r with
  | none => simp [regionStepBody, regionKeyedBody, hbe, dedupStep, Except.map]
  | some bev =>
    cases hie : iterElems bev with
    | error e => simp [regionStepBody, regionKeyedBody, hbe, hie, Except.map]
    | ok es =>
      simp only [regionStepBody, regionKeyedBody, hbe, hie]
      exact extractEntities_stream es skins seen

/-- One region of the loop is the fold of that region's stream, null
check included. -/
theorem regionStep_stream (r : JSVal) (skins : List SkinProfile)
    (seen : List JSVal) :
    regionStep r skins seen
      = Except.map (dedupStep (skins, seen)) (regionKeyedStep r) := by
  cases r
  case vnull => rfl
  all_goals
    simp only [regionStep, regionKeyedStep]
  all_goals
    exact regionStepBody_stream _ skins seen

/-- The region loop is the fold of the concatenated region streams. -/
theorem extractRegions_stream (rs : List JSVal) :
    ∀ (skins : List SkinProfile) (seen : List JSVal),
      extractRegions rs skins seen
        = Except.map (fun l => (dedupStep (skins, seen) l).1)
            (regionKeyed rs) := by
  induction rs with
  | nil =>
    intro skins seen
    rfl
  | cons r rest ih =>
    intro skins seen
    simp only [extractRegions, regionKeyed, regionStep_stream r skins seen]
    cases hks : regionKeyedStep r with
    | error e => simp [Except.map]
    | ok l =>
      cases hst : dedupStep (skins, seen) l with
      | mk skins' seen' =>
        simp only [Except.map, hst, ih skins' seen']
        cases hkr : regionKeyed rest with
        | error e => simp
        | ok l2 =>
            simp only [Except.map, dedupStep_append l l2 (skins, seen), hst]

/-- First-wins invariant of the fold: every kept pair has a truthy key
not yet seen, and is the first stream element carrying its key. -/
theorem dedupPairs_spec :
    ∀ (l : List (JSVal × SkinProfile)) (seen : List JSVal)
      (pr : JSVal × SkinProfile), pr ∈ dedupPairs seen l →
      jsTruthy pr.1 = true ∧ pr.1 ∉ seen
        ∧ l.find? (fun q => jeq q.1 pr.1) = some pr
  | (k, sd) :: rest, seen, pr, hmem => by
    simp only [dedupPairs] at hmem
    by_cases hc : (jsTruthy k && !(seen.any fun s => jeq s k)) = true
    · rw [if_pos hc] at hmem
      rw [Bool.and_eq_true, Bool.not_eq_true'] at hc
      rcases List.mem_cons.1 hmem with hpr | hpr
      · subst hpr
        refine ⟨hc.1, ?_, ?_⟩
        · intro hin
          rw [← any_jeq] at hin
          rw [hin] at hc
          exact absurd hc.2 (by simp)
        · exact List.find?_cons_of_pos _ (jeq_refl _)
      · obtain ⟨ht, hns, hfind⟩ := dedupPairs_spec rest (seen ++ [k]) pr hpr
        refine ⟨ht, fun hin => hns (by simp [hin]), ?_⟩
        rw [List.find?_cons_of_neg _ ?_, hfind]
        intro hj
        have hkp : k = pr.1 := eq_of_jeq hj
        exact hns (by rw [← hkp]; simp)
    · rw [Bool.not_eq_true] at hc
      simp only [hc, if_false] at hmem
      obtain ⟨ht, hns, hfind⟩ := dedupPairs_spec rest seen pr hmem
      refine ⟨ht, hns, ?_⟩
      rw [List.find?_cons_of_neg _ ?_, hfind]
      intro hj
      have hkp : k = pr.1 := eq_of_jeq hj
      rw [hkp, ht, Bool.true_and, Bool.not_eq_false'] at hc
      exact hns (any_jeq.1 hc)

/-- The fold keeps a subsequence of the stream. -/
theorem dedupPairs_sublist :
    ∀ (l : List (JSVal × SkinProfile)) (seen : List JSVal),
      (dedupPairs seen l).Sublist l
  | [], _ => List.Sublist.slnil
  | (k, sd) :: rest, seen => by
    simp only [dedupPairs]
    by_cases hc : (jsTruthy k && !(seen.any fun s => jeq s k)) = true
    · simp only [hc, if_true]
      exact List.Sublist.cons₂ _ (dedupPairs_sublist rest (seen ++ [k]))
    · rw [Bool.not_eq_true] at hc
      simp only [hc, if_false]
      exact List.Sublist.cons _ (dedupPairs_sublist rest seen)

/-- The fold keeps at most one pair per key. -/
theorem dedupPairs_keys_distinct :
    ∀ (l : List (JSVal × SkinProfile)) (seen : List JSVal),
      (dedupPairs seen l).Pairwise (fun p q => p.1 ≠ q.1)
  | [], _ => List.Pairwise.nil
  | (k, sd) :: rest, seen => by
    simp only [dedupPairs]
    by_cases hc : (jsTruthy k && !(seen.any fun s => jeq s k)) = true
    · simp only [hc, if_true]
      refine List.Pairwise.cons ?_ (dedupPairs_keys_distinct rest (seen ++ [k]))
      intro q hq he
      exact (dedupPairs_spec rest (seen ++ [k]) q hq).2.1 (by simp [← he])
    · rw [Bool.not_eq_true] at hc
      simp only [hc, if_false]
      exact dedupPairs_keys_distinct rest seen

/-- The extraction pass is the first-wins deduplication of the
encounter-ordered stream. -/
theorem extract_eq_stream (t : Bytes × Fields) :
    extractSkinsFromNBT t
      = Except.map (fun l => (dedupPairs [] l).map Prod.snd)
          (extractStream t) := by
  cases hrg : jsOr (getProp (JSVal.obj t.2) (sb "Regions"))
      (jsOr (getProp (JSVal.obj t.2) (sb "regions")) (some (.obj []))) with
  | none => simp [extractSkinsFromNBT, extractStream, hrg, Except.map,
      dedupPairs]
  | some rg =>
    simp only [extractSkinsFromNBT, extractStream, hrg]
    rw [extractRegions_stream (forInVals rg) [] []]
    cases hkr : regionKeyed (forInVals rg) with
    | error e => simp [Except.map]
    | ok l => simp [Except.map, dedupStep_pairs l [] []]

/-- C6: the result sequence is the first-wins deduplication, by the key
"texture value if truthy, else UUID, else name", of the
encounter-ordered profile stream (regions in order, then block entities
within each region): the result is a subsequence of the stream (insertion
order preserved), holds at most one profile per distinct key, each kept
pair is the first stream element with its key, and two block entities
sharing the texture value "TEX1" contribute exactly one profile, at the
position of first encounter. -/
theorem c6_deduplication :
    (∀ sd : SkinProfile,
      skinKey sd = jsOr sd.textureValue (jsOr sd.uuid sd.name))
    ∧ (∀ t : Bytes × Fields,
        extractSkinsFromNBT t
          = Except.map (fun l => (dedupPairs [] l).map Prod.snd)
              (extractStream t))
    ∧ (∀ (seen : List JSVal) (l : List (JSVal × SkinProfile)),
        (dedupPairs seen l).Sublist l)
    ∧ (∀ l : List (JSVal × SkinProfile),
        (dedupPairs [] l).Pairwise fun p q => p.1 ≠ q.1)
    ∧ (∀ (l : List (JSVal × SkinProfile)) (pr : JSVal × SkinProfile),
        pr ∈ dedupPairs [] l → l.find? (fun q => jeq q.1 pr.1) = some pr)
    ∧ extractSkinsFromNBT tex1Doc
        = .ok [⟨some (.str (sb "A")), none, none,
            some (.str (sb "TEX1")), none⟩] := by
  refine ⟨fun sd => rfl, extract_eq_stream,
    fun seen l => dedupPairs_sublist l seen,
    fun l => dedupPairs_keys_distinct l [],
    fun l pr hm => (dedupPairs_spec l [] pr hm).2.2, ?_⟩
  have h1 : extractStream tex1Doc
      = .ok [(JSVal.str (sb "TEX1"),
          ⟨some (.str (sb "A")), none, none, some (.str (sb "TEX1")), none⟩),
        (JSVal.str (sb "TEX1"),
          ⟨some (.str (sb "B")), none, none, some (.str (sb "TEX1")), none⟩)] :=
    rfl
  have hk : jsTruthy (JSVal.str (sb "TEX1")) = true := by decide
  have h2 : dedupPairs []
      [(JSVal.str (sb "TEX1"),
          ⟨some (.str (sb "A")), none, none, some (.str (sb "TEX1")), none⟩),
        (JSVal.str (sb "TEX1"),
          ⟨some (.str (sb "B")), none, none, some (.str (sb "TEX1")), none⟩)]
      = [(JSVal.str (sb "TEX1"),
          ⟨some (.str (sb "A")), none, none, some (.str (sb "TEX1")), none⟩)] := by
    simp [dedupPairs, hk, jeq_refl, List.any_nil, List.any_cons]
  rw [extract_eq_stream tex1Doc, h1]
  simp [Except.map, h2]

/-- C6 witness. -/
theorem c6_deduplication_witness :
    ((JSVal.str (sb "T"),
        (⟨some (.str (sb "A")), none, none, none, none⟩ : SkinProfile))
      ∈ dedupPairs []
        [(JSVal.str (sb "T"), ⟨some (.str (sb "A")), none, none, none, none⟩),
         (JSVal.str (sb "T"), ⟨some (.str (sb "B")), none, none, none, none⟩)])
    ∧ [(JSVal.str (sb "T"),
          (⟨some (.str (sb "A")), none, none, none, none⟩ : SkinProfile)),
        (JSVal.str (sb "T"), ⟨some (.str (sb "B")), none, none, none, none⟩)].find?
          (fun q => jeq q.1 (JSVal.str (sb "T")))
        = some (JSVal.str (sb "T"),
            ⟨some (.str (sb "A")), none, none, none, none⟩) := by
  have hk : jsTruthy (JSVal.str (sb "T")) = true := by decide
  have hmem : (JSVal.str (sb "T"),
      (⟨some (.str (sb "A")), none, none, none, none⟩ : SkinProfile))
      ∈ dedupPairs []
        [(JSVal.str (sb "T"), ⟨some (.str (sb "A")), none, none, none, none⟩),
         (JSVal.str (sb "T"), ⟨some (.str (sb "B")), none, none, none, none⟩)] := by
    simp [dedupPairs, hk, jeq_refl, List.any_nil, List.any_cons]
  exact ⟨hmem, c6_deduplication.2.2.2.2.1 _ _ hmem⟩

/-- C9: the extraction result of a block entity is independent of its
`id`/`Id` field: two entity compounds whose property reads agree on every
key other than `id` and `Id` extract identically (the source's `id` read
is dead), and an entity carrying none of the `profile`/`SkullOwner`/
`Owner` keys is never treated as a head block, whatever its id. -/
theorem c9_id_independent (fs1 fs2 : Fields)
    (h : ∀ k : List Nat, k ≠ sb "id" → k ≠ sb "Id" →
      getProp (.obj fs1) k = getProp (.obj fs2) k) :
    extractSkinFromEntity (.obj fs1) = extractSkinFromEntity (.obj fs2)
    ∧ ∀ fs : Fields, getProp (.obj fs) (sb "profile") = none →
        getProp (.obj fs) (sb "SkullOwner") = none →
        getProp (.obj fs) (sb "Owner") = none →
        extractSkinFromEntity (.obj fs) = Except.ok none := by
  constructor
  · simp only [extractSkinFromEntity, entityBody]
    rw [h (sb "profile") (by decide) (by decide),
      h (sb "SkullOwner") (by decide) (by decide),
      h (sb "Owner") (by decide) (by decide),
      h (sb "custom_name") (by decide) (by decide),
      h (sb "CustomName") (by decide) (by decide)]
  · intro fs h1 h2 h3
    simp [extractSkinFromEntity, entityBody, h1, h2, h3, jsOr, optTruthy]

/-- C9 witness. -/
theorem c9_id_independent_witness :
    getProp (.obj [(sb "id", .str (sb "x")),
        (sb "SkullOwner", .str (sb "Bob"))]) (sb "id")
      ≠ getProp (.obj [(sb "id", .str (sb "y")),
          (sb "SkullOwner", .str (sb "Bob"))]) (sb "id")
    ∧ extractSkinFromEntity (.obj [(sb "id", .str (sb "x")),
        (sb "SkullOwner", .str (sb "Bob"))])
      = extractSkinFromEntity (.obj [(sb "id", .str (sb "y")),
          (sb "SkullOwner", .str (sb "Bob"))]) := by
  constructor
  · intro h
    have h1 : getProp (.obj [(sb "id", .str (sb "x")),
        (sb "SkullOwner", .str (sb "Bob"))]) (sb "id")
        = some (.str (sb "x")) := rfl
    have h2 : getProp (.obj [(sb "id", .str (sb "y")),
        (sb "SkullOwner", .str (sb "Bob"))]) (sb "id")
        = some (.str (sb "y")) := rfl
    rw [h1, h2] at h
    exact absurd (JSVal.str.inj (Option.some.inj h)) (by decide)
  · exact (c9_id_independent
      [(sb "id", .str (sb "x")), (sb "SkullOwner", .str (sb "Bob"))]
      [(sb "id", .str (sb "y")), (sb "SkullOwner", .str (sb "Bob"))]
      (fun k hk1 _ => by
        have hb : (sb "id" == k) = false := by
          cases hbeq : (sb "id" == k)
          · rfl
          · exact absurd (Eq.symm (eq_of_beq hbeq)) hk1
        simp [getProp, List.find?, hb])).1

/-- Whatever else happens, an emitted profile's name is the value of the
`Name`-then-`name` truthiness chain. -/
theorem parseProfileObj_name (p : JSVal) (cn : Option JSVal)
    (r : SkinProfile) (hp : parseProfileObj p cn = .ok (some r)) :
    r.name = jsOr (getProp p (sb "Name"))
      (jsOr (getProp p (sb "name")) none) := by
  cases hpp : jsOr (getProp p (sb "Properties"))
      (getProp p (sb "properties")) with
  | none =>
    simp only [parseProfileObj, hpp] at hp
    repeat' split at hp
    all_goals injection hp with h1
    all_goals first
      | (injection h1 with h2; rw [← h2])
      | injection h1
  | some pv =>
    by_cases htr : jsTruthy pv = true
    · cases htp : texturePair pv with
      | error e =>
        simp only [parseProfileObj, hpp, if_pos htr, htp] at hp
        injection hp
      | ok tvts =>
        obtain ⟨tv, ts⟩ := tvts
        simp only [parseProfileObj, hpp, if_pos htr, htp] at hp
        repeat' split at hp
        all_goals injection hp with h1
        all_goals first
          | (injection h1 with h2; rw [← h2])
          | injection h1
    · simp only [parseProfileObj, hpp, if_neg htr] at hp
      repeat' split at hp
      all_goals injection hp with h1
      all_goals first
        | (injection h1 with h2; rw [← h2])
        | injection h1

/-- C10: aliased key lookup selects the first alias whose bound value is
truthy, not the first alias whose key is present: a profile compound with
`Name` bound to the empty string and `name` bound to a non-empty string
extracts the `name` value as its name, and a block entity whose `profile`
key is bound to the empty string falls through to a truthy
`SkullOwner`. -/
theorem c10_truthy_alias :
    (∀ (fs : Fields) (cn : Option JSVal) (s : List Nat) (r : SkinProfile),
      getProp (.obj fs) (sb "Name") = some (.str []) →
      getProp (.obj fs) (sb "name") = some (.str s) → s ≠ [] →
      parseProfile (.obj fs) cn = .ok (some r) →
      r.name = some (.str s))
    ∧ (∀ (fs : Fields) (v : JSVal),
        getProp (.obj fs) (sb "profile") = some (.str []) →
        getProp (.obj fs) (sb "SkullOwner") = some v →
        jsTruthy v = true →
        extractSkinFromEntity (.obj fs)
          = parseProfile v (jsOr (getProp (.obj fs) (sb "custom_name"))
              (jsOr (getProp (.obj fs) (sb "CustomName")) none))) := by
  constructor
  · intro fs cn s r h1 h2 hs hp
    have hchain : jsOr (getProp (.obj fs) (sb "Name"))
        (jsOr (getProp (.obj fs) (sb "name")) none) = some (.str s) := by
      rw [h1, h2]
      cases s with
      | nil => exact absurd rfl hs
      | cons a t => simp [jsOr, optTruthy, jsTruthy]
    rw [parseProfileObj_name (.obj fs) cn r hp, hchain]
  · intro fs v h1 h2 hv
    simp only [extractSkinFromEntity, entityBody, h1, h2]
    have he : jsTruthy (JSVal.str []) = false := rfl
    simp [jsOr, optTruthy, he, hv]

/-- C10 witness. -/
theorem c10_truthy_alias_witness :
    (getProp (.obj [(sb "Name", .str []), (sb "name", .str (sb "bob"))])
          (sb "Name") = some (.str [])
      ∧ getProp (.obj [(sb "Name", .str []), (sb "name", .str (sb "bob"))])
          (sb "name") = some (.str (sb "bob"))
      ∧ sb "bob" ≠ []
      ∧ parseProfile (.obj [(sb "Name", .str []),
            (sb "name", .str (sb "bob"))]) none
          = .ok (some ⟨some (.str (sb "bob")), none, none, none, none⟩)
      ∧ (⟨some (.str (sb "bob")), none, none, none,
            none⟩ : SkinProfile).name = some (.str (sb "bob")))
    ∧ (getProp (.obj [(sb "profile", .str []),
          (sb "SkullOwner", .str (sb "Alice"))]) (sb "profile")
            = some (.str [])
      ∧ jsTruthy (JSVal.str (sb "Alice")) = true
      ∧ extractSkinFromEntity (.obj [(sb "profile", .str []),
            (sb "SkullOwner", .str (sb "Alice"))])
          = parseProfile (.str (sb "Alice"))
              (jsOr (getProp (.obj [(sb "profile", .str []),
                  (sb "SkullOwner", .str (sb "Alice"))]) (sb "custom_name"))
                (jsOr (getProp (.obj [(sb "profile", .str []),
                  (sb "SkullOwner", .str (sb "Alice"))]) (sb "CustomName"))
                  none))) :=
  ⟨⟨rfl, rfl, by decide, rfl,
    c10_truthy_alias.1 [(sb "Name", .str []), (sb "name", .str (sb "bob"))]
      none (sb "bob") ⟨some (.str (sb "bob")), none, none, none, none⟩
      rfl rfl (by decide) rfl⟩,
    ⟨rfl, by decide,
      c10_truthy_alias.2 [(sb "profile", .str []),
          (sb "SkullOwner", .str (sb "Alice"))]
        (.str (sb "Alice")) rfl rfl (by decide)⟩⟩

end SkinDL
